import Mathlib

/-!
# Verification of the pepr3d per-triangle painting core

Shallow embedding of the pepr3d sources
(`src/geometry/TriangleDetail.cpp`, `src/geometry/Geometry.h`,
`src/tools/PaintBucket.h`) over exact rational arithmetic,
together with proofs and refutations of the specified properties.

The exact CGAL kernel is modelled by `ℚ`-coordinates (the sources use an
exact-predicates-exact-constructions kernel); external CGAL algorithms
(polygon boolean set operations, the constrained Delaunay triangulation,
the polyhedron half-edge structure) are modelled by their documented
set-level semantics or passed as explicit parameters.
-/

namespace Pepr3d

/-! ## Exact kernel: points and vectors -/

/-- A 2-dimensional exact point (CGAL `Point_2` over the exact kernel). -/
abbrev Q2 : Type := ℚ × ℚ

/-- A 3-dimensional exact point (CGAL `Point_3` over the exact kernel). -/
abbrev Q3 : Type := ℚ × ℚ × ℚ

/-- Vector subtraction in 2D. -/
def sub2 (a b : Q2) : Q2 := (a.1 - b.1, a.2 - b.2)

/-- Vector addition in 2D. -/
def add2 (a b : Q2) : Q2 := (a.1 + b.1, a.2 + b.2)

/-- Scalar multiple in 2D. -/
def smul2 (t : ℚ) (a : Q2) : Q2 := (t * a.1, t * a.2)

/-- 2D dot product. -/
def dot2 (a b : Q2) : ℚ := a.1 * b.1 + a.2 * b.2

/-- 2D cross product (z-component). -/
def cross2 (a b : Q2) : ℚ := a.1 * b.2 - a.2 * b.1

/-- Vector subtraction in 3D. -/
def sub3 (a b : Q3) : Q3 := (a.1 - b.1, a.2.1 - b.2.1, a.2.2 - b.2.2)

/-- Vector addition in 3D. -/
def add3 (a b : Q3) : Q3 := (a.1 + b.1, a.2.1 + b.2.1, a.2.2 + b.2.2)

/-- Scalar multiple in 3D. -/
def smul3 (t : ℚ) (a : Q3) : Q3 := (t * a.1, t * a.2.1, t * a.2.2)

/-- 3D dot product. -/
def dot3 (a b : Q3) : ℚ := a.1 * b.1 + a.2.1 * b.2.1 + a.2.2 * b.2.2

/-- 3D cross product. -/
def cross3 (a b : Q3) : Q3 :=
  (a.2.1 * b.2.2 - a.2.2 * b.2.1,
   a.2.2 * b.1 - a.1 * b.2.2,
   a.1 * b.2.1 - a.2.1 * b.1)

/-! ## Mesh flood-fill / bucket engine (`Geometry.h`)

`Geometry::bucket` together with `Geometry::addNeighboursToQueue`,
`Geometry::gatherNeighbours` and `Geometry::setTriangleColor`.
The CGAL polyhedron half-edge structure behind `gatherNeighbours` is
modelled by the `neighbours` function: for a face index it yields the
list of the three neighbouring face indices, `-1` standing for a mesh
boundary with no neighbour (exactly the `std::array<int, 3>` the source
builds from the half-edge structure). -/

/-- The part of the `Geometry` class state that the bucket engine touches:
the triangle soup colors (`mTriangles[i].getColor()`), the per-vertex color
buffer (`mColorBuffer`), the polyhedron adjacency data (`mPolyhedronData`,
abstracted to its emptiness flag and the per-face neighbour lists) and the
active color of the color manager. -/
structure Geometry where
  /-- The color of each triangle of the soup (`DataTriangle::getColor`). -/
  triangles : List ℕ
  /-- `mColorBuffer`: one entry per vertex, three per triangle. -/
  colorBuffer : List ℕ
  /-- `mPolyhedronData.P.is_empty()`. -/
  polyIsEmpty : Bool
  /-- `gatherNeighbours`: the up-to-three neighbouring face indices read
  from the half-edge structure; `-1` marks a boundary edge. -/
  neighbours : ℕ → List Int
  /-- `mColorManager.getActiveColorIndex()`. -/
  activeColor : ℕ

/-- `Geometry::setTriangleColor`: writes the new color into the three
vertex slots of the color buffer and into the triangle soup entry.
(The source `assert`s that the indices are in bounds; out-of-bounds
writes are modelled as no-ops of `List.set`.) -/
def setTriangleColor (g : Geometry) (triangleIndex : ℕ) (newColor : ℕ) : Geometry :=
  { g with
    colorBuffer :=
      (((g.colorBuffer.set (3 * triangleIndex) newColor).set
          (3 * triangleIndex + 1) newColor).set
        (3 * triangleIndex + 2) newColor),
    triangles := g.triangles.set triangleIndex newColor }

/-- `Geometry::addNeighboursToQueue`: for each of the three neighbours of
`currentVertex`, skip `-1` (boundary), skip faces already in
`alreadyVisited`, evaluate the stopping functor on `(neighbour, current)`
and on acceptance push the neighbour on the queue and mark it visited. -/
def addNeighboursToQueue (g : Geometry) (stopFunctor : ℕ → ℕ → Bool)
    (currentVertex : ℕ) (alreadyVisited : Finset ℕ) (toVisit : List ℕ) :
    Finset ℕ × List ℕ :=
  (g.neighbours currentVertex).foldl
    (fun st n =>
      if n = -1 then st
      else if n.toNat ∈ st.1 then st
      else if stopFunctor n.toNat currentVertex then
        (insert n.toNat st.1, st.2 ++ [n.toNat])
      else st)
    (alreadyVisited, toVisit)

/-- The `while(!toVisit.empty())` loop body of `Geometry::bucket`:
pop the front face, grow the queue from its neighbours, then set the
popped face's color to the active color.  The loop is expressed with an
explicit iteration bound; the source's debug assertion
`toVisit.size() < mTriangles.size()` bounds the live queue, so
`mTriangles.size() + 1` iterations (one per ever-enqueued face, each face
enqueued at most once thanks to `alreadyVisited`) exhaust the queue. -/
def bucketLoop (stopFunctor : ℕ → ℕ → Bool) :
    ℕ → Geometry → List ℕ → Finset ℕ → Geometry
  | 0, g, _, _ => g
  | _ + 1, g, [], _ => g
  | fuel + 1, g, currentVertex :: rest, alreadyVisited =>
    let st := addNeighboursToQueue g stopFunctor currentVertex alreadyVisited rest
    bucketLoop stopFunctor fuel
      (setTriangleColor g currentVertex g.activeColor) st.2 st.1

/-- `Geometry::bucket`: returns immediately when the polyhedron is empty;
otherwise seeds the queue and the visited set with the start triangle and
runs the breadth-first loop. -/
def bucket (g : Geometry) (startTriangle : ℕ) (stopFunctor : ℕ → ℕ → Bool) :
    Geometry :=
  if g.polyIsEmpty then g
  else
    bucketLoop stopFunctor (g.triangles.length + 1) g
      [startTriangle] {startTriangle}

/-! ### Basic facts about the bucket engine -/

lemma setTriangleColor_activeColor (g : Geometry) (i c : ℕ) :
    (setTriangleColor g i c).activeColor = g.activeColor := rfl

lemma setTriangleColor_polyIsEmpty (g : Geometry) (i c : ℕ) :
    (setTriangleColor g i c).polyIsEmpty = g.polyIsEmpty := rfl

lemma setTriangleColor_neighbours (g : Geometry) (i c : ℕ) :
    (setTriangleColor g i c).neighbours = g.neighbours := rfl

lemma setTriangleColor_triangles (g : Geometry) (i c : ℕ) :
    (setTriangleColor g i c).triangles = g.triangles.set i c := rfl

/-- Every face the neighbour fold appends to the queue passed the stopping
functor; a face rejected from `currentVertex` is never appended here. -/
lemma addNeighboursToQueue_not_mem (g : Geometry) (stopFunctor : ℕ → ℕ → Bool)
    (currentVertex : ℕ) (c : ℕ) (hstop : stopFunctor c currentVertex = false) :
    ∀ (ns : List Int) (st : Finset ℕ × List ℕ), c ∉ st.2 →
      c ∉ (ns.foldl
        (fun st n =>
          if n = -1 then st
          else if n.toNat ∈ st.1 then st
          else if stopFunctor n.toNat currentVertex then
            (insert n.toNat st.1, st.2 ++ [n.toNat])
          else st)
        st).2 := by
  intro ns
  induction ns with
  | nil => intro st h; simpa using h
  | cons n ns ih =>
    intro st h
    simp only [List.foldl_cons]
    by_cases h1 : n = -1
    · simp only [h1, if_pos rfl]
      exact ih _ h
    · simp only [if_neg h1]
      by_cases h2 : n.toNat ∈ st.1
      · simp only [if_pos h2]
        exact ih _ h
      · simp only [if_neg h2]
        by_cases h3 : stopFunctor n.toNat currentVertex = true
        · simp only [if_pos h3]
          refine ih _ ?_
          simp only [List.mem_append, List.mem_singleton]
          rintro (hc | hc)
          · exact h hc
          · subst hc; rw [hstop] at h3; exact Bool.false_ne_true h3
        · simp only [if_neg h3]
          exact ih _ h

/-- Restatement of `addNeighboursToQueue_not_mem` for the packaged call. -/
lemma addNeighboursToQueue_not_mem' (g : Geometry) (stopFunctor : ℕ → ℕ → Bool)
    (currentVertex : ℕ) (v : Finset ℕ) (q : List ℕ) (c : ℕ)
    (hstop : stopFunctor c currentVertex = false) (hq : c ∉ q) :
    c ∉ (addNeighboursToQueue g stopFunctor currentVertex v q).2 :=
  addNeighboursToQueue_not_mem g stopFunctor currentVertex c hstop _ (v, q) hq

/-- Once a triangle slot holds the active color, the rest of the
breadth-first loop keeps it at the active color: every later write also
writes the active color. -/
lemma bucketLoop_keeps_color (stopFunctor : ℕ → ℕ → Bool) (a s : ℕ) :
    ∀ (fuel : ℕ) (g : Geometry) (q : List ℕ) (v : Finset ℕ),
      g.activeColor = a → g.triangles[s]? = some a →
      (bucketLoop stopFunctor fuel g q v).triangles[s]? = some a := by
  intro fuel
  induction fuel with
  | zero => intro g q v _ hs; simpa [bucketLoop] using hs
  | succ fuel ih =>
    intro g q v ha hs
    match q with
    | [] => simpa [bucketLoop] using hs
    | cur :: rest =>
      rw [bucketLoop]
      refine ih _ _ _ (by simp [setTriangleColor_activeColor, ha]) ?_
      rw [setTriangleColor_triangles, ha]
      by_cases hc : cur = s
      · subst hc
        have hlt : cur < g.triangles.length := by
          by_contra hge
          rw [List.getElem?_eq_none (by omega)] at hs
          exact Option.noConfusion hs
        simp [List.getElem?_set, hlt]
      · rw [List.getElem?_set_ne hc]
        exact hs

/-- A face whose stopping predicate rejects it from every face, and which
is never on the queue, is never painted by the breadth-first loop. -/
lemma bucketLoop_never_painted (stopFunctor : ℕ → ℕ → Bool) (c : ℕ)
    (hstop : ∀ f, stopFunctor c f = false) :
    ∀ (fuel : ℕ) (g : Geometry) (q : List ℕ) (v : Finset ℕ), c ∉ q →
      (bucketLoop stopFunctor fuel g q v).triangles[c]? = g.triangles[c]? := by
  intro fuel
  induction fuel with
  | zero => intro g q v _; simp [bucketLoop]
  | succ fuel ih =>
    intro g q v hq
    match q with
    | [] => simp [bucketLoop]
    | cur :: rest =>
      rw [bucketLoop]
      have hcur : cur ≠ c := fun h => hq (by simp [h])
      have hrest : c ∉ rest := fun h => hq (by simp [h])
      rw [ih _ _ _
        (addNeighboursToQueue_not_mem' g stopFunctor cur v rest c (hstop cur) hrest)]
      rw [setTriangleColor_triangles]
      exact List.getElem?_set_ne hcur

/-- C10: with an empty polyhedron, `bucket` is an immediate no-op.
The whole `Geometry` value (triangle colors, the color buffer, and all
other fields) is returned unchanged. -/
theorem bucket_empty_polyhedron_noop (g : Geometry) (startTriangle : ℕ)
    (stopFunctor : ℕ → ℕ → Bool) (h : g.polyIsEmpty = true) :
    bucket g startTriangle stopFunctor = g := by
  simp [bucket, h]

/-- A tiny concrete mesh used to instantiate the bucket theorems. -/
def bucketGeoA : Geometry where
  triangles := [0, 0]
  colorBuffer := [0, 0, 0, 0, 0, 0]
  polyIsEmpty := true
  neighbours := fun i => [[1, -1, -1], [0, -1, -1]].getD i []
  activeColor := 7

/-- Witness for C10 at a concrete geometry with an empty polyhedron. -/
theorem bucket_empty_polyhedron_noop_witness :
    bucketGeoA.polyIsEmpty = true ∧
      bucket bucketGeoA 0 (fun _ _ => true) = bucketGeoA :=
  ⟨rfl, bucket_empty_polyhedron_noop bucketGeoA 0 (fun _ _ => true) rfl⟩

/-- C9: on a mesh with a non-empty polyhedron and an in-bounds start
triangle, `bucket` always paints the start triangle with the active color,
whatever the stopping predicate does: the seed is queued unconditionally
and painted on its dequeue, without the predicate being evaluated on it. -/
theorem bucket_paints_start (g : Geometry) (startTriangle : ℕ)
    (stopFunctor : ℕ → ℕ → Bool) (hne : g.polyIsEmpty = false)
    (hlt : startTriangle < g.triangles.length) :
    (bucket g startTriangle stopFunctor).triangles[startTriangle]? =
      some g.activeColor := by
  rw [bucket, if_neg (by simp [hne])]
  have hlen : g.triangles.length + 1 = (g.triangles.length) + 1 := rfl
  rw [bucketLoop]
  refine bucketLoop_keeps_color stopFunctor g.activeColor startTriangle _ _ _ _
    (by simp [setTriangleColor_activeColor]) ?_
  rw [setTriangleColor_triangles]
  simp [List.getElem?_set, hlt]

/-- A concrete mesh with a non-empty polyhedron. -/
def bucketGeoB : Geometry where
  triangles := [0, 0]
  colorBuffer := [0, 0, 0, 0, 0, 0]
  polyIsEmpty := false
  neighbours := fun i => [[1, -1, -1], [0, -1, -1]].getD i []
  activeColor := 7

/-- Witness for C9: the start triangle of a concrete bucket call ends up
with the active color even under the never-accept predicate. -/
theorem bucket_paints_start_witness :
    bucketGeoB.polyIsEmpty = false ∧ 0 < bucketGeoB.triangles.length ∧
      (bucket bucketGeoB 0 (fun _ _ => false)).triangles[0]? =
        some bucketGeoB.activeColor :=
  ⟨rfl, by decide,
    bucket_paints_start bucketGeoB 0 (fun _ _ => false) rfl (by decide)⟩

/-- The three-face fan used to refute C4: faces `0`, `1`, `2`, pairwise
adjacent. -/
def bucketGeoC : Geometry where
  triangles := [0, 0, 0]
  colorBuffer := [0, 0, 0, 0, 0, 0, 0, 0, 0]
  polyIsEmpty := false
  neighbours := fun i => [[1, 2, -1], [0, 2, -1], [0, 1, -1]].getD i []
  activeColor := 5

/-- The stopping predicate that rejects face `2` exactly when reached from
face `0` and accepts everything else. -/
def bucketStopC : ℕ → ℕ → Bool := fun candidate current =>
  !(candidate == 2 && current == 0)

/-- C4 counterexample: in the three-face fan flooded from face `0`, the
predicate rejects face `2` when it is first considered (from face `0`,
while `2` is neither Visited nor Queued), yet face `2` is later re-tested
from face `1`, queued, and painted with the active color — the rejection
is not permanent. -/
theorem bucket_rejection_not_permanent_counterexample :
    bucketStopC 2 0 = false ∧
      bucketGeoC.triangles[2]? = some 0 ∧
      (bucket bucketGeoC 0 bucketStopC).triangles[2]? = some 5 := by
  refine ⟨rfl, rfl, ?_⟩
  decide

/-- C4 (amended): a rejected neighbour is merely not queued from the face
that rejected it; it stays Unvisited and may be re-evaluated and queued
from another adjacent face later in the same call.  Only a face that the
predicate rejects from every face (and that is not the seed) is never
queued nor painted during the call. -/
theorem bucket_rejected_from_everywhere_never_painted (g : Geometry)
    (startTriangle : ℕ) (stopFunctor : ℕ → ℕ → Bool) (c : ℕ)
    (hstop : ∀ f, stopFunctor c f = false) (hc : c ≠ startTriangle) :
    (bucket g startTriangle stopFunctor).triangles[c]? = g.triangles[c]? := by
  rw [bucket]
  by_cases hempty : g.polyIsEmpty
  · rw [if_pos hempty]
  · rw [if_neg hempty]
    exact bucketLoop_never_painted stopFunctor c hstop _ g [startTriangle]
      {startTriangle} (by simpa using hc)

/-- Witness for the amended C4 at the three-face fan: a face rejected from
everywhere keeps its original color. -/
theorem bucket_rejected_from_everywhere_never_painted_witness :
    (∀ f, (fun (c _ : ℕ) => !(c == 2)) 2 f = false) ∧ (2 : ℕ) ≠ 0 ∧
      (bucket bucketGeoC 0 (fun c _ => !(c == 2))).triangles[2]? =
        bucketGeoC.triangles[2]? :=
  ⟨fun _ => rfl, by decide,
    bucket_rejected_from_everywhere_never_painted bucketGeoC 0
      (fun c _ => !(c == 2)) 2 (fun _ => rfl) (by decide)⟩

/-! ## Triangle Detail: set-level model (`TriangleDetail.cpp`)

The per-triangle colored-region engine.  The CGAL `Polygon_set_2` of each
color is modelled by the set of 2D points it covers; the CGAL boolean set
operations `join`, `intersection` and `difference` are modelled by their
set semantics.  The constrained Delaunay triangulation engine (an external
CGAL algorithm) is passed in as a `ConstrainedTriangulation` oracle that
maps a region to the list of its finite faces with assigned nesting
levels; its `run_empty` field captures that an empty polygon set contains
no polygons with holes, which is exactly what the `is_empty()` skip in
`updateTrianglesFromPolygons` relies on. -/

namespace Detail

/-- `mOriginalPlane`'s 2D parametrization: `to_3d (u, v) = orig + u·base1
+ v·base2` (CGAL `Plane_3::to_3d` over the plane's point and bases). -/
structure PlaneCoords where
  orig : Q3
  base1 : Q3
  base2 : Q3
deriving DecidableEq

/-- `Plane_3::to_3d`. -/
def to3d (pl : PlaneCoords) (p : Q2) : Q3 :=
  add3 pl.orig (add3 (smul3 p.1 pl.base1) (smul3 p.2 pl.base2))

/-- A finite face of the constrained triangulation: its three 2D vertices
and the nesting level written by `markDomains`. -/
structure CTFace where
  nestingLevel : Int
  v0 : Q2
  v1 : Q2
  v2 : Q2
deriving DecidableEq

/-- One derived sub-triangle: the `mTriangles` entry (3D vertices, color)
paired with its `mTrianglesExact` twin (the exact 2D vertices), which the
source keeps in lockstep by construction. -/
structure SoupRec where
  d0 : Q3
  d1 : Q3
  d2 : Q3
  e0 : Q2
  e1 : Q2
  e2 : Q2
  color : ℕ
deriving DecidableEq

/-- CGAL `Triangle_3::squared_area` of the 3D triangle `a b c`. -/
def squaredArea3 (a b c : Q3) : ℚ :=
  dot3 (cross3 (sub3 b a) (sub3 c a)) (cross3 (sub3 b a) (sub3 c a)) / 4

/-- The closed region of the 2D triangle `a b c` (all convex
combinations); point-set semantics of the triangle built by
`polygonFromTriangle`. -/
def triSet2 (a b c : Q2) : Set Q2 :=
  {p | ∃ s t u : ℚ, 0 ≤ s ∧ 0 ≤ t ∧ 0 ≤ u ∧ s + t + u = 1 ∧
    p = add2 (smul2 s a) (add2 (smul2 t b) (smul2 u c))}

/-- Build the soup entry for one kept face: map the 2D vertices to 3D via
the supporting plane, flip the 3D winding when the cross product of the
edges dotted with the original normal is negative, tag with the color,
and keep the exact 2D twin in the original vertex order (the source
`emplace_back`s `vertex(0..2)->point()` unflipped). -/
def mkSoupRec (pl : PlaneCoords) (normal : Q3) (color : ℕ) (f : CTFace) :
    SoupRec :=
  let a := to3d pl f.v0
  let b := to3d pl f.v1
  let c := to3d pl f.v2
  let d : Q3 × Q3 × Q3 :=
    if dot3 normal (cross3 (sub3 b a) (sub3 c a)) < 0 then (a, c, b)
    else (a, b, c)
  ⟨d.1, d.2.1, d.2.2, f.v0, f.v1, f.v2, color⟩

/-- `TriangleDetail::addTrianglesFromPolygon`, after `markDomains` has
assigned nesting levels: iterate the finite faces, keep those whose
nesting level has positive remainder modulo 2 (C++ truncating `%`), map
them to 3D, drop those whose 3D triangle has zero squared area, and emit
the soup entries.  The construction of the triangulation itself from the
polygon's edge constraints is external (CGAL); its output faces are the
`faces` argument. -/
def addTrianglesFromPolygon (pl : PlaneCoords) (normal : Q3)
    (faces : List CTFace) (color : ℕ) : List SoupRec :=
  faces.foldl
    (fun acc f =>
      if Int.tmod f.nestingLevel 2 > 0 then
        let a := to3d pl f.v0
        let b := to3d pl f.v1
        let c := to3d pl f.v2
        if squaredArea3 a b c > 0 then acc ++ [mkSoupRec pl normal color f]
        else acc
      else acc)
    []

/-- The external constrained-Delaunay engine: maps a color's region to
the finite faces (with nesting levels) of the constrained triangulation
of its polygons with holes.  An empty polygon set has no polygons with
holes, hence no faces — which is what the `is_empty()` skip in
`updateTrianglesFromPolygons` relies on. -/
structure ConstrainedTriangulation where
  run : Set Q2 → List CTFace
  run_empty : run ∅ = []

/-- The region covered by the sub-triangles of a given color: semantics
of grouping the exact soup triangles by color and joining them
(`updatePolysFromTriangles`'s `polygonsByColor` pass). -/
def soupRegion (soup : List SoupRec) (c : ℕ) : Set Q2 :=
  {p | ∃ r ∈ soup, r.color = c ∧ p ∈ triSet2 r.e0 r.e1 r.e2}

/-- The `TriangleDetail` state at the set level. -/
structure TriangleDetail where
  /-- `mOriginalPlane`'s parametrization. -/
  plane : PlaneCoords
  /-- `mOriginal.getNormal()`. -/
  normal : Q3
  /-- `mBounds`: the region of the original triangle, to which every
  added shape is clipped. -/
  bounds : Set Q2
  /-- The key set of the `std::map` `mColoredPolys`. -/
  colorKeys : List ℕ
  /-- The region of each color index; a color that is not a key of
  `mColoredPolys` has the empty region. -/
  regions : ℕ → Set Q2
  /-- `mColorChanged`. -/
  colorChanged : Bool
  /-- The derived soup `mTriangles`/`mTrianglesExact`. -/
  soup : List SoupRec

/-- `TriangleDetail::updatePolysFromTriangles`: rebuild `mColoredPolys`
from scratch by grouping the exact soup triangles by color and joining
each group into a polygon set, then clear the dirty flag.  (The
clockwise-reorientation inside `polygonFromTriangle` does not change the
covered region.) -/
def updatePolysFromTriangles (td : TriangleDetail) : TriangleDetail :=
  { td with
    colorKeys := (td.soup.map SoupRec.color).dedup,
    regions := soupRegion td.soup,
    colorChanged := false }

/-- `TriangleDetail::updateTrianglesFromPolygons`: clear the soup and,
color by color, triangulate the color's polygon set and append the
emitted sub-triangles. -/
def updateTrianglesFromPolygons (ct : ConstrainedTriangulation)
    (td : TriangleDetail) : TriangleDetail :=
  { td with
    soup := (td.colorKeys.map (fun c =>
      addTrianglesFromPolygon td.plane td.normal (ct.run (td.regions c)) c)).flatten }

/-- `TriangleDetail::simplifyPolygons` at the set level: merging
consecutive collinear edges only changes the boundary representation of
the stored polygons, never the region they cover, so on this model it is
the identity.  (Its actual vertex-level behaviour is analysed separately
on the syntactic polygon model.) -/
def simplifyPolygonsS (td : TriangleDetail) : TriangleDetail := td

/-- `TriangleDetail::addPolygon`: clip the polygon to the triangle
bounds, resynchronize from the soup if the soup was the last
authoritative view, join the clipped shape into its color's set,
subtract it from every other color's set, simplify, and regenerate the
soup. -/
def addPolygon (ct : ConstrainedTriangulation) (td : TriangleDetail)
    (poly : Set Q2) (color : ℕ) : TriangleDetail :=
  let addedShape := poly ∩ td.bounds
  let td1 := if td.colorChanged then updatePolysFromTriangles td else td
  let td2 : TriangleDetail :=
    { td1 with
      colorKeys :=
        if color ∈ td1.colorKeys then td1.colorKeys
        else td1.colorKeys ++ [color],
      regions := fun c =>
        if c = color then td1.regions c ∪ addedShape
        else td1.regions c \ addedShape }
  updateTrianglesFromPolygons ct (simplifyPolygonsS td2)

/-- A circle in 3D (CGAL `Circle_3`): the intersection circle of a
sphere with the supporting plane. -/
structure Circle3 where
  center : Q3
  squaredRadius : ℚ
deriving DecidableEq

/-- `TriangleDetail::addCircle`: discretize the circle into a polygon
(`polygonFromCircle`, whose covered region is the external `disc`
parameter here because the discretization uses `sqrt`/`cos`/`sin`) and
forward to `addPolygon`. -/
def addCircle (ct : ConstrainedTriangulation) (disc : Circle3 → Set Q2)
    (td : TriangleDetail) (circle : Circle3) (color : ℕ) : TriangleDetail :=
  addPolygon ct td (disc circle) color

/-- A sphere brush stroke (`PeprSphere`, exact coordinates). -/
structure PeprSphere where
  center : Q3
  squaredRadius : ℚ
deriving DecidableEq

/-- The tagged result of `CGAL::intersection(sphere, plane)` as consumed
through `SphereIntersectionVisitor`. -/
inductive SpherePlaneIntersection where
  | empty : SpherePlaneIntersection
  | point : SpherePlaneIntersection
  | circle : Circle3 → SpherePlaneIntersection
deriving DecidableEq

/-- Modelled from the spec: `SphereIntersectionVisitor` and the CGAL
sphere–plane intersection (both outside `src/`; the visitor lives in
`TriangleDetail.h`).  Per spec §4.1/§7, the intersection of a sphere with
the triangle's supporting plane is empty, a single point, or a circle,
according to the comparison of the squared distance of the sphere center
to the plane with the squared radius; the visitor forwards only the
circle case.  The plane through `orig` spanned by `base1`, `base2` has
normal `base1 × base2`. -/
def spherePlaneIntersection (pl : PlaneCoords) (s : PeprSphere) :
    SpherePlaneIntersection :=
  let n := cross3 pl.base1 pl.base2
  let t := dot3 n (sub3 s.center pl.orig)
  let nn := dot3 n n
  if s.squaredRadius * nn < t * t then .empty
  else if t * t = s.squaredRadius * nn then .point
  else .circle ⟨sub3 s.center (smul3 (t / nn) n), s.squaredRadius - t * t / nn⟩

/-- `TriangleDetail::paintSphere`: intersect the sphere with the
supporting plane; continue (discretize and `addPolygon`) only when the
intersection is a circle. -/
def paintSphere (ct : ConstrainedTriangulation) (disc : Circle3 → Set Q2)
    (td : TriangleDetail) (sphere : PeprSphere) (color : ℕ) : TriangleDetail :=
  match spherePlaneIntersection td.plane sphere with
  | .empty => td
  | .point => td
  | .circle c => addPolygon ct td (disc c) color

/-! ### C7: degenerate sphere–plane intersections are silent no-ops -/

/-- C7: if intersecting the sphere with the triangle's supporting plane
yields no intersection or a single point (not a circle), `paintSphere`
is a no-op: the whole `TriangleDetail` value — partition, derived soup
and every other field — is returned unchanged, and no error is raised. -/
theorem paintSphere_degenerate_noop (ct : ConstrainedTriangulation)
    (disc : Circle3 → Set Q2) (td : TriangleDetail) (sphere : PeprSphere)
    (color : ℕ)
    (h : spherePlaneIntersection td.plane sphere = .empty ∨
         spherePlaneIntersection td.plane sphere = .point) :
    paintSphere ct disc td sphere color = td := by
  rcases h with h | h <;> simp [paintSphere, h]

/-- The xy-plane parametrization. -/
def planeXY : PlaneCoords := ⟨(0, 0, 0), (1, 0, 0), (0, 1, 0)⟩

/-- A triangulation oracle producing no faces. -/
def ctNone : ConstrainedTriangulation := ⟨fun _ => [], rfl⟩

/-- A concrete detail over the xy-plane with nothing painted. -/
def tdFlat : TriangleDetail where
  plane := planeXY
  normal := (0, 0, 1)
  bounds := Set.univ
  colorKeys := []
  regions := fun _ => ∅
  colorChanged := false
  soup := []

/-- A sphere whose distance to the xy-plane exceeds its radius. -/
def sphereFar : PeprSphere := ⟨(0, 0, 5), 4⟩

/-- Witness for C7: a concrete sphere that misses the supporting plane
leaves a concrete detail unchanged. -/
lemma sphereFar_misses_plane :
    spherePlaneIntersection tdFlat.plane sphereFar = .empty := by
  norm_num [spherePlaneIntersection, tdFlat, planeXY, sphereFar, dot3, cross3,
    sub3]

theorem paintSphere_degenerate_noop_witness :
    (spherePlaneIntersection tdFlat.plane sphereFar = .empty ∨
      spherePlaneIntersection tdFlat.plane sphereFar = .point) ∧
      paintSphere ctNone (fun _ => ∅) tdFlat sphereFar 3 = tdFlat :=
  ⟨Or.inl sphereFar_misses_plane,
    paintSphere_degenerate_noop ctNone (fun _ => ∅) tdFlat sphereFar 3
      (Or.inl sphereFar_misses_plane)⟩

/-! ### C1: the partition invariant is preserved by every stroke -/

/-- One stroke of a painting sequence: an `addPolygon` call or an
`addCircle` call. -/
inductive StrokeOp where
  | polygon : Set Q2 → ℕ → StrokeOp
  | circle : Circle3 → ℕ → StrokeOp

/-- Apply one stroke to a detail. -/
def applyStroke (ct : ConstrainedTriangulation) (disc : Circle3 → Set Q2)
    (td : TriangleDetail) : StrokeOp → TriangleDetail
  | .polygon poly color => addPolygon ct td poly color
  | .circle c color => addCircle ct disc td c color

/-- Apply a sequence of strokes in order. -/
def applyStrokes (ct : ConstrainedTriangulation) (disc : Circle3 → Set Q2)
    (td : TriangleDetail) (ops : List StrokeOp) : TriangleDetail :=
  ops.foldl (applyStroke ct disc) td

/-- Invariant A of the data model: the union of all colors' regions is
exactly the original triangle's area (`mBounds`), distinct colors'
regions are disjoint, and the polygon sets are the authoritative view. -/
def PartitionInv (td : TriangleDetail) : Prop :=
  (⋃ c, td.regions c) = td.bounds ∧
    (∀ c c', c ≠ c' → td.regions c ∩ td.regions c' = ∅) ∧
    td.colorChanged = false

lemma updateTrianglesFromPolygons_regions (ct : ConstrainedTriangulation)
    (td : TriangleDetail) :
    (updateTrianglesFromPolygons ct td).regions = td.regions := rfl

lemma updateTrianglesFromPolygons_bounds (ct : ConstrainedTriangulation)
    (td : TriangleDetail) :
    (updateTrianglesFromPolygons ct td).bounds = td.bounds := rfl

lemma updateTrianglesFromPolygons_colorChanged (ct : ConstrainedTriangulation)
    (td : TriangleDetail) :
    (updateTrianglesFromPolygons ct td).colorChanged = td.colorChanged := rfl

lemma addPolygon_regions (ct : ConstrainedTriangulation) (td : TriangleDetail)
    (poly : Set Q2) (color : ℕ) (h : td.colorChanged = false) :
    (addPolygon ct td poly color).regions = fun c =>
      if c = color then td.regions c ∪ (poly ∩ td.bounds)
      else td.regions c \ (poly ∩ td.bounds) := by
  simp [addPolygon, h, updateTrianglesFromPolygons, simplifyPolygonsS]

lemma addPolygon_bounds (ct : ConstrainedTriangulation) (td : TriangleDetail)
    (poly : Set Q2) (color : ℕ) (h : td.colorChanged = false) :
    (addPolygon ct td poly color).bounds = td.bounds := by
  simp [addPolygon, h, updateTrianglesFromPolygons, simplifyPolygonsS]

lemma addPolygon_colorChanged (ct : ConstrainedTriangulation)
    (td : TriangleDetail) (poly : Set Q2) (color : ℕ)
    (h : td.colorChanged = false) :
    (addPolygon ct td poly color).colorChanged = false := by
  simp [addPolygon, h, updateTrianglesFromPolygons, simplifyPolygonsS]

/-- The set algebra behind the incremental partition maintenance: joining
a shape `S ⊆ B` into one cell of a partition of `B` and subtracting it
from every other cell yields a partition of `B` again. -/
lemma partition_update (R : ℕ → Set Q2) (B S : Set Q2) (color : ℕ)
    (hu : (⋃ c, R c) = B) (hd : ∀ c c', c ≠ c' → R c ∩ R c' = ∅)
    (hS : S ⊆ B) :
    ((⋃ c, if c = color then R c ∪ S else R c \ S) = B) ∧
      ∀ c c', c ≠ c' →
        (if c = color then R c ∪ S else R c \ S) ∩
          (if c' = color then R c' ∪ S else R c' \ S) = ∅ := by
  constructor
  · ext x
    simp only [Set.mem_iUnion]
    constructor
    · rintro ⟨c, hx⟩
      by_cases hcc : c = color
      · simp only [if_pos hcc] at hx
        rcases hx with hx | hx
        · rw [← hu]; exact Set.mem_iUnion.mpr ⟨c, hx⟩
        · exact hS hx
      · simp only [if_neg hcc] at hx
        rw [← hu]; exact Set.mem_iUnion.mpr ⟨c, hx.1⟩
    · intro hx
      have hx' : x ∈ ⋃ c, R c := hu ▸ hx
      obtain ⟨c0, hc0⟩ := Set.mem_iUnion.mp hx'
      by_cases hs : x ∈ S
      · exact ⟨color, by simp only [if_pos rfl]; exact Or.inr hs⟩
      · by_cases hcc : c0 = color
        · exact ⟨c0, by simp only [if_pos hcc]; exact Or.inl hc0⟩
        · exact ⟨c0, by simp only [if_neg hcc]; exact ⟨hc0, hs⟩⟩
  · intro c c' hne
    ext x
    simp only [Set.mem_inter_iff, Set.mem_empty_iff_false, iff_false]
    rintro ⟨h1, h2⟩
    by_cases hcc : c = color
    · have hc' : ¬c' = color := fun h => hne (hcc.trans h.symm)
      simp only [if_pos hcc] at h1
      simp only [if_neg hc'] at h2
      rcases h1 with h1 | h1
      · exact Set.eq_empty_iff_forall_not_mem.mp (hd _ _ hne) x ⟨h1, h2.1⟩
      · exact h2.2 h1
    · simp only [if_neg hcc] at h1
      by_cases hcc' : c' = color
      · simp only [if_pos hcc'] at h2
        rcases h2 with h2 | h2
        · exact Set.eq_empty_iff_forall_not_mem.mp (hd _ _ hne) x ⟨h1.1, h2⟩
        · exact h1.2 h2
      · simp only [if_neg hcc'] at h2
        exact Set.eq_empty_iff_forall_not_mem.mp (hd _ _ hne) x ⟨h1.1, h2.1⟩

/-- A single `addPolygon` call preserves the partition invariant: the
clipped shape is joined into its color and subtracted from every other
color. -/
lemma addPolygon_partitionInv (ct : ConstrainedTriangulation)
    (td : TriangleDetail) (poly : Set Q2) (color : ℕ)
    (h : PartitionInv td) : PartitionInv (addPolygon ct td poly color) := by
  obtain ⟨hu, hd, hc⟩ := h
  obtain ⟨h1, h2⟩ := partition_update td.regions td.bounds (poly ∩ td.bounds)
    color hu hd Set.inter_subset_right
  refine ⟨?_, ?_, addPolygon_colorChanged ct td poly color hc⟩
  · rw [addPolygon_regions ct td poly color hc,
      addPolygon_bounds ct td poly color hc]
    exact h1
  · intro c c' hne
    rw [addPolygon_regions ct td poly color hc]
    exact h2 c c' hne

/-- C1: for every sequence of `addPolygon`/`addCircle` calls starting
from a state satisfying Invariant A, the invariant holds again after each
call: the union of all colors' regions equals the original triangle's
area exactly, and distinct colors' regions have empty (in particular
empty-interior) intersection.  Since the sequence of strokes is
arbitrary, the conclusion applies after every prefix of a longer
sequence. -/
theorem strokes_preserve_partition (ct : ConstrainedTriangulation)
    (disc : Circle3 → Set Q2) (td : TriangleDetail) (h : PartitionInv td)
    (ops : List StrokeOp) : PartitionInv (applyStrokes ct disc td ops) := by
  induction ops generalizing td with
  | nil => exact h
  | cons op ops ih =>
    refine ih _ ?_
    match op with
    | .polygon poly color => exact addPolygon_partitionInv ct td poly color h
    | .circle c color => exact addPolygon_partitionInv ct td (disc c) color h

/-- A concrete detail whose whole (here: unbounded) area is color `0`. -/
def tdUni : TriangleDetail where
  plane := planeXY
  normal := (0, 0, 1)
  bounds := Set.univ
  colorKeys := [0]
  regions := fun c => if c = 0 then Set.univ else ∅
  colorChanged := false
  soup := []

lemma tdUni_partitionInv : PartitionInv tdUni := by
  refine ⟨?_, ?_, rfl⟩
  · ext x
    simp only [Set.mem_iUnion, tdUni]
    exact ⟨fun _ => trivial, fun _ => ⟨0, by simp⟩⟩
  · intro c c' hne
    ext x
    simp only [tdUni, Set.mem_inter_iff, Set.mem_empty_iff_false, iff_false]
    by_cases hc : c = 0
    · have hc' : ¬c' = 0 := fun h => hne (hc.trans h.symm)
      simp [hc, hc']
    · simp [hc]

/-- Witness for C1: a concrete stroke sequence (a polygon and a circle)
on a concretely-partitioned detail keeps the invariant. -/
theorem strokes_preserve_partition_witness :
    PartitionInv tdUni ∧
      PartitionInv (applyStrokes ctNone (fun _ => ∅) tdUni
        [StrokeOp.polygon {p : Q2 | 0 ≤ p.1} 1, StrokeOp.circle ⟨(0, 0, 0), 1⟩ 2]) :=
  ⟨tdUni_partitionInv,
    strokes_preserve_partition ctNone (fun _ => ∅) tdUni tdUni_partitionInv _⟩

/-! ### C8: the triangulator keeps exactly the odd, non-degenerate faces -/

lemma mkSoupRec_color (pl : PlaneCoords) (normal : Q3) (color : ℕ)
    (f : CTFace) : (mkSoupRec pl normal color f).color = color := rfl

lemma mkSoupRec_exact (pl : PlaneCoords) (normal : Q3) (color : ℕ)
    (f : CTFace) : (mkSoupRec pl normal color f).e0 = f.v0 ∧
      (mkSoupRec pl normal color f).e1 = f.v1 ∧
      (mkSoupRec pl normal color f).e2 = f.v2 := ⟨rfl, rfl, rfl⟩

/-- The face loop of `addTrianglesFromPolygon` is the filter of the faces
by "positive remainder mod 2 and positive squared area", mapped through
the soup-entry construction. -/
lemma addTrianglesFromPolygon_eq_filter_map (pl : PlaneCoords) (normal : Q3)
    (faces : List CTFace) (color : ℕ) :
    addTrianglesFromPolygon pl normal faces color =
      (faces.filter (fun f =>
        decide (0 < Int.tmod f.nestingLevel 2) &&
          decide (0 < squaredArea3 (to3d pl f.v0) (to3d pl f.v1) (to3d pl f.v2)))).map
        (mkSoupRec pl normal color) := by
  suffices h : ∀ (fs : List CTFace) (acc : List SoupRec),
      fs.foldl
        (fun acc f =>
          if Int.tmod f.nestingLevel 2 > 0 then
            let a := to3d pl f.v0
            let b := to3d pl f.v1
            let c := to3d pl f.v2
            if squaredArea3 a b c > 0 then acc ++ [mkSoupRec pl normal color f]
            else acc
          else acc)
        acc =
      acc ++ (fs.filter (fun f =>
        decide (0 < Int.tmod f.nestingLevel 2) &&
          decide (0 < squaredArea3 (to3d pl f.v0) (to3d pl f.v1) (to3d pl f.v2)))).map
        (mkSoupRec pl normal color) by
    simpa [addTrianglesFromPolygon] using h faces []
  intro fs
  induction fs with
  | nil => intro acc; simp
  | cons f fs ih =>
    intro acc
    by_cases h1 : 0 < Int.tmod f.nestingLevel 2
    · by_cases h2 :
        0 < squaredArea3 (to3d pl f.v0) (to3d pl f.v1) (to3d pl f.v2)
      · simp [List.foldl_cons, h1, h2, ih]
      · simp [List.foldl_cons, h1, h2, ih]
    · simp [List.foldl_cons, h1, ih]

/-- For the non-negative levels produced by the nesting flood fill,
"positive remainder modulo 2" (C++ truncating `%`) is oddness. -/
lemma tmod_two_pos_iff_odd (n : Int) (hn : 0 ≤ n) :
    0 < Int.tmod n 2 ↔ Odd n := by
  rw [Int.tmod_eq_emod hn (by norm_num), Int.odd_iff]
  omega

/-- C8: after the nesting levels have been assigned (all non-negative,
level `0` on the unbounded side), the emitted soup entries are exactly
the faces with odd nesting level whose mapped 3D triangle has non-zero
area; even-level faces and zero-area faces are dropped. -/
theorem addTrianglesFromPolygon_emits_odd_faces (pl : PlaneCoords)
    (normal : Q3) (faces : List CTFace) (color : ℕ)
    (hlev : ∀ f ∈ faces, 0 ≤ f.nestingLevel) (r : SoupRec) :
    r ∈ addTrianglesFromPolygon pl normal faces color ↔
      ∃ f ∈ faces, Odd f.nestingLevel ∧
        0 < squaredArea3 (to3d pl f.v0) (to3d pl f.v1) (to3d pl f.v2) ∧
        r = mkSoupRec pl normal color f := by
  rw [addTrianglesFromPolygon_eq_filter_map]
  simp only [List.mem_map, List.mem_filter, Bool.and_eq_true, decide_eq_true_eq]
  constructor
  · rintro ⟨f, ⟨hf, h1, h2⟩, rfl⟩
    exact ⟨f, hf, (tmod_two_pos_iff_odd _ (hlev f hf)).mp h1, h2, rfl⟩
  · rintro ⟨f, hf, h1, h2, rfl⟩
    exact ⟨f, ⟨hf, (tmod_two_pos_iff_odd _ (hlev f hf)).mpr h1, h2⟩, rfl⟩

/-- Faces used for the C8 witness: one interior (level 1) face, one
exterior (level 2) face, and one degenerate interior face. -/
def facesW : List CTFace :=
  [⟨1, (0, 0), (1, 0), (0, 1)⟩, ⟨2, (0, 0), (1, 0), (1, 1)⟩,
   ⟨1, (0, 0), (1, 0), (2, 0)⟩]

/-- Witness for C8: on a concrete face list with assigned levels, the
emitted entry of the odd non-degenerate face is in the output. -/
theorem addTrianglesFromPolygon_emits_odd_faces_witness :
    (∀ f ∈ facesW, 0 ≤ f.nestingLevel) ∧
      mkSoupRec planeXY (0, 0, 1) 4 ⟨1, (0, 0), (1, 0), (0, 1)⟩ ∈
        addTrianglesFromPolygon planeXY (0, 0, 1) facesW 4 := by
  refine ⟨by decide, ?_⟩
  refine (addTrianglesFromPolygon_emits_odd_faces planeXY (0, 0, 1) facesW 4
    (by decide) _).mpr ⟨⟨1, (0, 0), (1, 0), (0, 1)⟩, by norm_num [facesW], ⟨0, by norm_num⟩, ?_, rfl⟩
  norm_num [squaredArea3, to3d, planeXY, dot3, cross3, sub3, add3, smul3]

/-! ### C3: the triangulation round trip preserves every color's region -/

/-- Every soup entry emitted for color `c` carries color `c`. -/
lemma addTrianglesFromPolygon_colors (pl : PlaneCoords) (normal : Q3)
    (faces : List CTFace) (color : ℕ) (r : SoupRec)
    (hr : r ∈ addTrianglesFromPolygon pl normal faces color) :
    r.color = color := by
  rw [addTrianglesFromPolygon_eq_filter_map] at hr
  obtain ⟨f, _, rfl⟩ := List.mem_map.mp hr
  rfl

/-- C3: `updateTrianglesFromPolygons()` followed by
`updatePolysFromTriangles()` reproduces, for every color, the region the
color had before the round trip (hence in particular the same total
area), provided the triangulation oracle is sound for the current state:
the region covered by the sub-triangles it emits for a color equals the
color's region.  Colors absent from the key set keep their empty
region. -/
theorem roundTrip_preserves_regions (ct : ConstrainedTriangulation)
    (td : TriangleDetail)
    (hout : ∀ c, c ∉ td.colorKeys → td.regions c = ∅)
    (hvalid : ∀ c ∈ td.colorKeys,
      soupRegion
        (addTrianglesFromPolygon td.plane td.normal (ct.run (td.regions c)) c)
        c = td.regions c) :
    ∀ c, (updatePolysFromTriangles (updateTrianglesFromPolygons ct td)).regions c
      = td.regions c := by
  intro c
  have hsoup : (updateTrianglesFromPolygons ct td).soup =
      (td.colorKeys.map (fun k =>
        addTrianglesFromPolygon td.plane td.normal (ct.run (td.regions k)) k)).flatten :=
    rfl
  have hreg : (updatePolysFromTriangles (updateTrianglesFromPolygons ct td)).regions
      = soupRegion (updateTrianglesFromPolygons ct td).soup := rfl
  rw [hreg, hsoup]
  by_cases hc : c ∈ td.colorKeys
  · rw [← hvalid c hc]
    ext p
    simp only [soupRegion, Set.mem_setOf_eq, List.mem_flatten, List.mem_map]
    constructor
    · rintro ⟨r, ⟨⟨_, ⟨k, hk, rfl⟩, hrk⟩, hcol, hp⟩⟩
      have : r.color = k := addTrianglesFromPolygon_colors _ _ _ _ _ hrk
      rw [this] at hcol
      subst hcol
      exact ⟨r, hrk, addTrianglesFromPolygon_colors _ _ _ _ _ hrk, hp⟩
    · rintro ⟨r, hr, hcol, hp⟩
      exact ⟨r, ⟨_, ⟨c, hc, rfl⟩, hr⟩, hcol, hp⟩
  · rw [hout c hc]
    ext p
    simp only [soupRegion, Set.mem_setOf_eq, List.mem_flatten, List.mem_map,
      Set.mem_empty_iff_false, iff_false]
    rintro ⟨r, ⟨⟨_, ⟨k, hk, rfl⟩, hrk⟩, hcol, _⟩⟩
    have : r.color = k := addTrianglesFromPolygon_colors _ _ _ _ _ hrk
    rw [this] at hcol
    subst hcol
    exact hc hk

/-- The triangle region used by the C3 witness. -/
def triW : Set Q2 := triSet2 (0, 0) (1, 0) (0, 1)

/-- A detail whose single color key `2` covers `triW`. -/
def tdW3 : TriangleDetail where
  plane := planeXY
  normal := (0, 0, 1)
  bounds := triW
  colorKeys := [2]
  regions := fun c => if c = 2 then triW else ∅
  colorChanged := false
  soup := []

/-- The face list the C3 witness oracle returns for `triW`. -/
def facesW3 : List CTFace := [⟨1, (0, 0), (1, 0), (0, 1)⟩]

/-- The single soup entry of the C3 witness. -/
def recW3 : SoupRec := mkSoupRec planeXY (0, 0, 1) 2 ⟨1, (0, 0), (1, 0), (0, 1)⟩

lemma origin_mem_triW : ((0, 0) : Q2) ∈ triW := by
  refine ⟨1, 0, 0, by norm_num, by norm_num, by norm_num, by norm_num, ?_⟩
  norm_num [add2, smul2]

lemma addTrianglesFromPolygon_facesW3 :
    addTrianglesFromPolygon planeXY (0, 0, 1) facesW3 2 = [recW3] := by
  simp only [addTrianglesFromPolygon, facesW3, List.foldl_cons, List.foldl_nil]
  rw [if_pos (by decide),
    if_pos (by norm_num [squaredArea3, to3d, planeXY, dot3, cross3, sub3,
      add3, smul3])]
  rfl

lemma soupRegion_recW3 : soupRegion [recW3] 2 = triW := by
  have h0 : recW3.e0 = ((0 : ℚ), (0 : ℚ)) := rfl
  have h1 : recW3.e1 = ((1 : ℚ), (0 : ℚ)) := rfl
  have h2 : recW3.e2 = ((0 : ℚ), (1 : ℚ)) := rfl
  have hc : recW3.color = 2 := rfl
  ext p
  simp [soupRegion, h0, h1, h2, hc, triW]

/-- Witness for C3: a concrete round trip through a concrete (piecewise)
triangulation oracle reproduces the single painted region. -/
theorem roundTrip_preserves_regions_witness :
    (∀ c, c ∉ tdW3.colorKeys → tdW3.regions c = ∅) ∧
      ∀ c,
        (updatePolysFromTriangles (updateTrianglesFromPolygons
          (⟨fun s => @ite _ (s = triW) (Classical.propDecidable _) facesW3 [],
            if_neg fun (h : (∅ : Set Q2) = triW) =>
              (h.symm ▸ origin_mem_triW : ((0, 0) : Q2) ∈ (∅ : Set Q2))⟩ :
              ConstrainedTriangulation)
          tdW3)).regions c = tdW3.regions c := by
  have hout : ∀ c, c ∉ tdW3.colorKeys → tdW3.regions c = ∅ := by
    intro c hc
    simp only [tdW3, List.mem_singleton] at hc ⊢
    rw [if_neg hc]
  refine ⟨hout, roundTrip_preserves_regions _ tdW3 hout ?_⟩
  intro c hc
  simp only [tdW3, List.mem_singleton] at hc
  subst hc
  have hreg : tdW3.regions 2 = triW := by simp [tdW3]
  have hplane : tdW3.plane = planeXY := rfl
  have hnormal : tdW3.normal = ((0 : ℚ), (0 : ℚ), (1 : ℚ)) := rfl
  rw [hreg, hplane, hnormal]
  show soupRegion (addTrianglesFromPolygon planeXY (0, 0, 1)
    (@ite _ (triW = triW) (Classical.propDecidable _) facesW3 []) 2) 2 = triW
  rw [if_pos rfl, addTrianglesFromPolygon_facesW3, soupRegion_recW3]

/-! ### C5: circle discretization and the equal-angle tie-break

`TriangleDetail::polygonFromCircle` walks `vertexCount` regularly spaced
samples; before pushing the sample at angle `circleCoord` it consumes
every not-yet-inserted shared (edge-crossing) point whose angle is
`≤ circleCoord`, pushing it **unless its angle equals `circleCoord`**;
after the loop the remaining shared points are appended.  The angles
(doubles in the source: `atan2` results and `(i/vertexCount)·2π`) are
modelled as exact rationals, with the full angle `2π` a parameter
`twoPi`; the sample positions (computed with `cos`/`sin`) are the
`sample` parameter, and the sorted output of `getCircleSharedPoints` is
the `sharedPoints` parameter. -/

/-- The inner `while` loop: consume the shared points whose angle is at
most `circleCoord`, keeping (in order) those whose angle differs from
`circleCoord`; return the kept points and the unconsumed suffix. -/
def consumeShared (circleCoord : ℚ) :
    List (Q2 × ℚ) → List Q2 × List (Q2 × ℚ)
  | [] => ([], [])
  | (pt, ang) :: rest =>
    if ang ≤ circleCoord then
      let t := consumeShared circleCoord rest
      (if ang ≠ circleCoord then pt :: t.1 else t.1, t.2)
    else ([], (pt, ang) :: rest)

/-- The `for` loop of `polygonFromCircle` from sample index `i` on, with
the remaining shared points; after the last sample the leftover shared
points are appended. -/
def circlePolyLoop (vertexCount : ℕ) (twoPi : ℚ) (sample : ℕ → Q2) :
    ℕ → List (Q2 × ℚ) → List Q2
  | i, shared =>
    if _h : i < vertexCount then
      let circleCoord := (i : ℚ) / vertexCount * twoPi
      let t := consumeShared circleCoord shared
      t.1 ++ sample i :: circlePolyLoop vertexCount twoPi sample (i + 1) t.2
    else shared.map Prod.fst
termination_by i _ => vertexCount - i
decreasing_by omega

/-- `TriangleDetail::polygonFromCircle`, at the level of its polygon
construction loop. -/
def polygonFromCircle (vertexCount : ℕ) (twoPi : ℚ) (sample : ℕ → Q2)
    (sharedPoints : List (Q2 × ℚ)) : List Q2 :=
  circlePolyLoop vertexCount twoPi sample 0 sharedPoints

/-- C5 counterexample: with two samples (angles `0` and `1` in units
where the full angle is `2`) and one edge-crossing point at angle exactly
`1`, the crossing point is consumed without being pushed and the
regularly-spaced sample at that angle is kept: the polygon is exactly the
two samples and does not contain the crossing point, refuting the claim
that the crossing point is inserted in preference to the sample. -/
theorem polygonFromCircle_equal_angle_counterexample :
    polygonFromCircle 2 2 (fun i => ((10 * (i + 1) : ℚ), 0)) [((5, 5), 1)] =
      [(10, 0), (20, 0)] ∧
      ((5, 5) : Q2) ∉
        polygonFromCircle 2 2 (fun i => ((10 * (i + 1) : ℚ), 0)) [((5, 5), 1)] := by
  have h : polygonFromCircle 2 2 (fun i => ((10 * (i + 1) : ℚ), 0)) [((5, 5), 1)] =
      [(10, 0), (20, 0)] := by
    rw [polygonFromCircle, circlePolyLoop]
    rw [dif_pos (by norm_num)]
    simp only
    rw [show ((0 : ℕ) : ℚ) / (2 : ℕ) * 2 = 0 by norm_num]
    rw [consumeShared]
    rw [if_neg (by norm_num)]
    simp only
    rw [circlePolyLoop]
    rw [dif_pos (by norm_num)]
    simp only
    rw [show ((1 : ℕ) : ℚ) / (2 : ℕ) * 2 = 1 by norm_num]
    rw [consumeShared]
    rw [if_pos (by norm_num)]
    rw [consumeShared]
    simp only [ne_eq, not_true_eq_false, if_false]
    rw [circlePolyLoop]
    norm_num
  exact ⟨h, by rw [h]; norm_num⟩

lemma consumeShared_cons_lt (c : ℚ) (pt : Q2) (ang : ℚ)
    (rest : List (Q2 × ℚ)) (h1 : ang ≤ c) (h2 : ang ≠ c) :
    consumeShared c ((pt, ang) :: rest) =
      (pt :: (consumeShared c rest).1, (consumeShared c rest).2) := by
  simp [consumeShared, h1, h2]

lemma consumeShared_cons_eq (c : ℚ) (pt : Q2) (rest : List (Q2 × ℚ)) :
    consumeShared c ((pt, c) :: rest) = consumeShared c rest := by
  simp [consumeShared]

lemma consumeShared_cons_gt (c : ℚ) (pt : Q2) (ang : ℚ)
    (rest : List (Q2 × ℚ)) (h1 : ¬ang ≤ c) :
    consumeShared c ((pt, ang) :: rest) = ([], (pt, ang) :: rest) := by
  simp [consumeShared, h1]

lemma consumeShared_fst_mem (c : ℚ) (q : Q2) :
    ∀ s : List (Q2 × ℚ), q ∈ (consumeShared c s).1 →
      ∃ b, (q, b) ∈ s ∧ b ≤ c ∧ b ≠ c := by
  intro s
  induction s with
  | nil => simp [consumeShared]
  | cons pr rest ih =>
    obtain ⟨pt, ang⟩ := pr
    by_cases hle : ang ≤ c
    · by_cases hne : ang = c
      · subst hne
        rw [consumeShared_cons_eq]
        intro hq
        obtain ⟨b, hb, h1, h2⟩ := ih hq
        exact ⟨b, List.mem_cons_of_mem _ hb, h1, h2⟩
      · rw [consumeShared_cons_lt c pt ang rest hle hne]
        intro hq
        rcases List.mem_cons.mp hq with hq | hq
        · exact ⟨ang, by simp [hq], hle, hne⟩
        · obtain ⟨b, hb, h1, h2⟩ := ih hq
          exact ⟨b, List.mem_cons_of_mem _ hb, h1, h2⟩
    · rw [consumeShared_cons_gt c pt ang rest hle]
      simp

lemma consumeShared_snd_subset (c : ℚ) (pr : Q2 × ℚ) :
    ∀ s : List (Q2 × ℚ), pr ∈ (consumeShared c s).2 → pr ∈ s := by
  intro s
  induction s with
  | nil => simp [consumeShared]
  | cons hd rest ih =>
    obtain ⟨pt, ang⟩ := hd
    by_cases hle : ang ≤ c
    · by_cases hne : ang = c
      · subst hne
        rw [consumeShared_cons_eq]
        exact fun hq => List.mem_cons_of_mem _ (ih hq)
      · rw [consumeShared_cons_lt c pt ang rest hle hne]
        exact fun hq => List.mem_cons_of_mem _ (ih hq)
    · rw [consumeShared_cons_gt c pt ang rest hle]
      exact fun h => h

lemma consumeShared_snd_pairwise (c : ℚ) :
    ∀ s : List (Q2 × ℚ), List.Pairwise (fun x y : Q2 × ℚ => x.2 ≤ y.2) s →
      List.Pairwise (fun x y : Q2 × ℚ => x.2 ≤ y.2) (consumeShared c s).2 := by
  intro s
  induction s with
  | nil => simp [consumeShared]
  | cons hd rest ih =>
    obtain ⟨pt, ang⟩ := hd
    intro hs
    by_cases hle : ang ≤ c
    · by_cases hne : ang = c
      · subst hne
        rw [consumeShared_cons_eq]
        exact ih (List.Pairwise.of_cons hs)
      · rw [consumeShared_cons_lt c pt ang rest hle hne]
        exact ih (List.Pairwise.of_cons hs)
    · rw [consumeShared_cons_gt c pt ang rest hle]
      exact hs

lemma consumeShared_snd_gt (c : ℚ) :
    ∀ s : List (Q2 × ℚ), List.Pairwise (fun x y : Q2 × ℚ => x.2 ≤ y.2) s →
      ∀ pr ∈ (consumeShared c s).2, c < pr.2 := by
  intro s
  induction s with
  | nil => simp [consumeShared]
  | cons hd rest ih =>
    obtain ⟨pt, ang⟩ := hd
    intro hs
    by_cases hle : ang ≤ c
    · by_cases hne : ang = c
      · subst hne
        rw [consumeShared_cons_eq]
        exact ih (List.Pairwise.of_cons hs)
      · rw [consumeShared_cons_lt c pt ang rest hle hne]
        exact ih (List.Pairwise.of_cons hs)
    · rw [consumeShared_cons_gt c pt ang rest hle]
      intro pr hpr
      rcases List.mem_cons.mp hpr with hq | hq
      · rw [hq]
        exact lt_of_not_le hle
      · exact lt_of_lt_of_le (lt_of_not_le hle)
          ((List.pairwise_cons.mp hs).1 pr hq)

/-- Every in-range regularly-spaced sample appears in the constructed
polygon. -/
lemma circlePolyLoop_sample_mem (n : ℕ) (twoPi : ℚ) (sample : ℕ → Q2)
    (i : ℕ) (hi : i < n) :
    ∀ (fuel k : ℕ) (s : List (Q2 × ℚ)), k ≤ i → n - k ≤ fuel →
      sample i ∈ circlePolyLoop n twoPi sample k s := by
  intro fuel
  induction fuel with
  | zero => intro k s hk hf; omega
  | succ fuel ih =>
    intro k s hk hf
    have hkn : k < n := lt_of_le_of_lt hk hi
    rw [circlePolyLoop, dif_pos hkn]
    simp only [List.mem_append, List.mem_cons]
    by_cases hki : k = i
    · exact Or.inr (Or.inl (by rw [hki]))
    · exact Or.inr (Or.inr (ih (k + 1) _ (by omega) (by omega)))

/-- The core of the amended C5: a point that occurs among the shared
points only at the angle of sample `j` and is distinct from all samples
never enters the polygon. -/
lemma circlePolyLoop_drops_equal_angle (n : ℕ) (twoPi : ℚ) (sample : ℕ → Q2)
    (p : Q2) (j : ℕ) (hpi : 0 < twoPi) (hj : j < n)
    (hsample : ∀ i, i < n → sample i ≠ p) :
    ∀ (fuel i : ℕ) (s : List (Q2 × ℚ)), n - i ≤ fuel →
      List.Pairwise (fun x y : Q2 × ℚ => x.2 ≤ y.2) s →
      (∀ pr ∈ s, pr.1 = p → pr.2 = (j : ℚ) / n * twoPi) →
      (j < i → ∀ pr ∈ s, pr.1 ≠ p) →
      p ∉ circlePolyLoop n twoPi sample i s := by
  have hmono : ∀ i k : ℕ, i ≤ k →
      (i : ℚ) / n * twoPi ≤ (k : ℚ) / n * twoPi := by
    intro i k hik
    have h1 : (i : ℚ) ≤ (k : ℚ) := by exact_mod_cast hik
    have h2 : (0 : ℚ) ≤ ((n : ℚ))⁻¹ := by positivity
    calc (i : ℚ) / n * twoPi = (i : ℚ) * ((n : ℚ))⁻¹ * twoPi := by
          rw [div_eq_mul_inv]
      _ ≤ (k : ℚ) * ((n : ℚ))⁻¹ * twoPi := by
          apply mul_le_mul_of_nonneg_right _ (le_of_lt hpi)
          exact mul_le_mul_of_nonneg_right h1 h2
      _ = (k : ℚ) / n * twoPi := by rw [div_eq_mul_inv]
  intro fuel
  induction fuel with
  | zero =>
    intro i s hf hsort hangle hgone
    have hin : ¬i < n := by omega
    rw [circlePolyLoop, dif_neg hin]
    intro hp
    obtain ⟨pr, hpr, hpp⟩ := List.mem_map.mp hp
    exact hgone (by omega) pr hpr hpp
  | succ fuel ih =>
    intro i s hf hsort hangle hgone
    by_cases hin : i < n
    · rw [circlePolyLoop, dif_pos hin]
      simp only [List.mem_append, List.mem_cons, not_or]
      refine ⟨?_, ?_, ?_⟩
      · -- p is not among the points consumed and pushed at this sample
        intro hp
        obtain ⟨b, hb, hble, hbne⟩ :=
          consumeShared_fst_mem ((i : ℚ) / n * twoPi) p s hp
        have hba : b = (j : ℚ) / n * twoPi := hangle _ hb rfl
        by_cases hji : j < i
        · exact hgone hji _ hb rfl
        · have hij : i ≤ j := by omega
          have hgeb : (i : ℚ) / n * twoPi ≤ b := by
            rw [hba]
            exact hmono i j hij
          exact hbne (le_antisymm hble hgeb)
      · exact fun h => hsample i hin h.symm
      · refine ih (i + 1) _ (by omega)
          (consumeShared_snd_pairwise _ s hsort)
          (fun pr hpr => hangle pr (consumeShared_snd_subset _ pr s hpr)) ?_
        intro hji1 pr hpr hpp
        by_cases hji : j < i
        · exact hgone hji pr (consumeShared_snd_subset _ pr s hpr) hpp
        · have hjieq : j = i := by omega
          have h1 : (i : ℚ) / n * twoPi < pr.2 :=
            consumeShared_snd_gt _ s hsort pr hpr
          have h2 : pr.2 = (j : ℚ) / n * twoPi :=
            hangle pr (consumeShared_snd_subset _ pr s hpr) hpp
          rw [h2, hjieq] at h1
          exact lt_irrefl _ h1
    · rw [circlePolyLoop, dif_neg hin]
      intro hp
      obtain ⟨pr, hpr, hpp⟩ := List.mem_map.mp hp
      exact hgone (by omega) pr hpr hpp

/-- C5 (amended): when an exact edge-crossing point has the same angular
position as a regularly-spaced sample, the crossing point is **omitted**
from the discretized polygon (the inner loop consumes it without pushing
it) and the regularly-spaced sample at that angle is kept. -/
theorem polygonFromCircle_equal_angle_keeps_sample (n : ℕ) (twoPi : ℚ)
    (sample : ℕ → Q2) (shared : List (Q2 × ℚ)) (p : Q2) (j : ℕ)
    (hpi : 0 < twoPi) (hj : j < n)
    (hmem : (p, (j : ℚ) / n * twoPi) ∈ shared)
    (hsort : List.Pairwise (fun x y : Q2 × ℚ => x.2 ≤ y.2) shared)
    (hponly : ∀ pr ∈ shared, pr.1 = p → pr.2 = (j : ℚ) / n * twoPi)
    (hsample : ∀ i, i < n → sample i ≠ p) :
    p ∉ polygonFromCircle n twoPi sample shared ∧
      sample j ∈ polygonFromCircle n twoPi sample shared :=
  ⟨circlePolyLoop_drops_equal_angle n twoPi sample p j hpi hj hsample
      (n : ℕ) 0 shared (by omega) hsort hponly (by omega),
    circlePolyLoop_sample_mem n twoPi sample j hj n 0 shared (by omega)
      (by omega)⟩

/-- Witness for the amended C5 at the concrete two-sample circle: the
crossing point at the sample angle is dropped, the sample is kept. -/
theorem polygonFromCircle_equal_angle_keeps_sample_witness :
    ((((5 : ℚ), (5 : ℚ)), ((1 : ℕ) : ℚ) / (2 : ℕ) * 2) ∈
        [(((5 : ℚ), (5 : ℚ)), (1 : ℚ))]) ∧
      ((5, 5) : Q2) ∉
        polygonFromCircle 2 2 (fun i => ((10 * (i + 1) : ℚ), 0))
          [((5, 5), 1)] ∧
      (fun i => ((10 * (i + 1) : ℚ), (0 : ℚ))) 1 ∈
        polygonFromCircle 2 2 (fun i => ((10 * (i + 1) : ℚ), 0))
          [((5, 5), 1)] := by
  have hcoord : ((1 : ℕ) : ℚ) / (2 : ℕ) * 2 = 1 := by norm_num
  have h := polygonFromCircle_equal_angle_keeps_sample 2 2
    (fun i => ((10 * (i + 1) : ℚ), 0)) [((5, 5), 1)] (5, 5) 1
    (by norm_num) (by norm_num)
    (by rw [hcoord]; simp)
    (by simp)
    (by
      rw [hcoord]
      intro pr hpr _
      simp only [List.mem_singleton] at hpr
      subst hpr
      rfl)
    (by intro i _ h; simp only [Prod.mk.injEq] at h; norm_num at h)
  exact ⟨by rw [hcoord]; simp, h.1, h.2⟩

/-! ### C6: `simplifyPolygons` and consecutive collinear edges

The syntactic polygon model: a polygon boundary is the cyclic list of
its vertices (CGAL `Polygon_2`), a polygon with holes keeps its outer
boundary and hole boundaries (CGAL `Polygon_with_holes_2`). -/

/-- A polygon boundary: the cyclic list of its vertices. -/
abbrev Polygon := List Q2

/-- A polygon with holes: the outer boundary and the hole boundaries. -/
structure PolygonWithHoles where
  outer : Polygon
  holes : List Polygon
deriving DecidableEq

/-- Vertex `i` of a boundary, cyclically (CGAL `Polygon_2::vertex`). -/
def vtx (b : Polygon) (i : ℕ) : Q2 := b.getD (i % b.length) (0, 0)

/-- Edge `i` of a boundary: from vertex `i` to vertex `i + 1`, cyclically
(CGAL `Polygon_2::edge`). -/
def edge (b : Polygon) (i : ℕ) : Q2 × Q2 := (vtx b i, vtx b (i + 1))

/-- CGAL `Segment_2::supporting_line()` equality (`Line_2::operator==`):
the two (oriented) supporting lines coincide — the segments' direction
vectors are positive multiples of each other and the second segment's
source lies on the first segment's line. -/
def sameSuppLine (s t : Q2 × Q2) : Prop :=
  cross2 (sub2 s.2 s.1) (sub2 t.2 t.1) = 0 ∧
    0 < dot2 (sub2 s.2 s.1) (sub2 t.2 t.1) ∧
    cross2 (sub2 s.2 s.1) (sub2 t.1 s.1) = 0

instance sameSuppLineDec (s t : Q2 × Q2) : Decidable (sameSuppLine s t) := by
  unfold sameSuppLine
  infer_instance

/-- The first pass of `TriangleDetail::simplifyPolygon`: for
`i = 1 .. edgeCount - 1`, record vertex `i` for removal when edges
`i - 1` and `i` lie on the same supporting line. -/
def verticesToRemove (boundary : Polygon) : List ℕ :=
  (List.range boundary.length).filter
    (fun i => decide (1 ≤ i ∧ sameSuppLine (edge boundary (i - 1)) (edge boundary i)))

/-- The second pass: erase the recorded vertices from the back
(`rbegin..rend`), so that earlier indices stay valid. -/
def removeVertices (boundary : Polygon) (idxs : List ℕ) : Polygon :=
  idxs.foldr (fun i b => b.eraseIdx i) boundary

/-- `TriangleDetail::simplifyPolygon`: merge consecutive collinear edges
of the **outer boundary** by deleting their shared vertices; returns the
simplified polygon and whether anything was removed.  The holes are not
touched. -/
def simplifyPolygon (poly : PolygonWithHoles) : PolygonWithHoles × Bool :=
  let vr := verticesToRemove poly.outer
  (⟨removeVertices poly.outer vr, poly.holes⟩, !vr.isEmpty)

/-- `TriangleDetail::simplifyPolygons`: simplify every stored polygon
with holes of every color (`mColoredPolys` as an association list of
polygon lists); when nothing was simplified the re-inserted set equals
the original, so the update is the per-polygon simplification either
way. -/
def simplifyPolygons (colored : List (ℕ × List PolygonWithHoles)) :
    List (ℕ × List PolygonWithHoles) :=
  colored.map (fun pr => (pr.1, pr.2.map (fun poly => (simplifyPolygon poly).1)))

/-- The C6 counterexample state: the outer boundary is an axis-aligned
square with an extra vertex in the middle of its bottom edge, listed so
that the extra vertex is vertex `0` (the cyclic pair of edges `4` and
`0` is collinear); the (clockwise) hole has an extra collinear vertex in
the middle of its bottom edge at a scanned position. -/
def pwhCE : PolygonWithHoles where
  outer := [(4, 0), (8, 0), (8, 8), (0, 8), (0, 0)]
  holes := [[(2, 2), (2, 4), (4, 4), (4, 2), (3, 2)]]

/-- C6 counterexample: `simplifyPolygons` leaves the state `pwhCE`
entirely unchanged, although its outer boundary still has two
consecutive edges (the cyclic pair `4`, `0`, sharing vertex `0`) on the
same supporting line and its hole still has two consecutive edges (the
pair `3`, `4`) on the same supporting line: the scan never compares the
cyclic pair and never visits the holes. -/
theorem simplifyPolygons_collinear_counterexample :
    simplifyPolygons [(0, [pwhCE])] = [(0, [pwhCE])] ∧
      sameSuppLine (edge pwhCE.outer 4) (edge pwhCE.outer 0) ∧
      sameSuppLine (edge (pwhCE.holes.getD 0 []) 3)
        (edge (pwhCE.holes.getD 0 []) 4) := by
  have hvr : verticesToRemove pwhCE.outer = [] := by
    rw [verticesToRemove, List.filter_eq_nil_iff]
    intro i hi
    simp only [List.mem_range, pwhCE, List.length_cons, List.length_nil] at hi
    simp only [decide_eq_true_eq, not_and]
    interval_cases i <;>
      · intro h1
        first
        | exact absurd h1 (by omega)
        | norm_num [sameSuppLine, edge, vtx, pwhCE, cross2, dot2, sub2]
  refine ⟨?_, ?_, ?_⟩
  · simp only [simplifyPolygons, simplifyPolygon, hvr, List.map_cons,
      List.map_nil, removeVertices, List.foldr_nil]
  · norm_num [sameSuppLine, edge, vtx, pwhCE, cross2, dot2, sub2]
  · norm_num [sameSuppLine, edge, vtx, pwhCE, cross2, dot2, sub2]

/-! #### Oriented-direction algebra for the amended C6 -/

/-- Two vectors point the same way: parallel with positive scalar
product (the relation underlying oriented supporting-line equality of
segments that share an endpoint). -/
def SameDir (u v : Q2) : Prop := cross2 u v = 0 ∧ 0 < dot2 u v

lemma cross2_self (u : Q2) : cross2 u u = 0 := by
  unfold cross2; ring

lemma sub2_ne_zero (x y : Q2) (h : x ≠ y) : sub2 x y ≠ (0, 0) := by
  intro hc
  apply h
  obtain ⟨x1, x2⟩ := x
  obtain ⟨y1, y2⟩ := y
  simp only [sub2, Prod.mk.injEq] at hc
  simp only [Prod.mk.injEq]
  constructor <;> [linarith [hc.1]; linarith [hc.2]]

lemma dot2_self_pos (u : Q2) (h : u ≠ (0, 0)) : 0 < dot2 u u := by
  obtain ⟨u1, u2⟩ := u
  have h' : u1 ≠ 0 ∨ u2 ≠ 0 := by
    by_contra hc
    push_neg at hc
    exact h (by simp [hc.1, hc.2])
  unfold dot2
  rcases h' with h1 | h1
  · nlinarith [mul_self_pos.mpr h1, mul_self_nonneg u2]
  · nlinarith [mul_self_pos.mpr h1, mul_self_nonneg u1]

lemma SameDir.refl_of_ne (u : Q2) (h : u ≠ (0, 0)) : SameDir u u :=
  ⟨cross2_self u, dot2_self_pos u h⟩

lemma SameDir.ne_zero_right (u v : Q2) (h : SameDir u v) : v ≠ (0, 0) := by
  rintro rfl
  have h2 := h.2
  unfold dot2 at h2
  simp at h2

lemma SameDir.symm (u v : Q2) (h : SameDir u v) : SameDir v u := by
  obtain ⟨h1, h2⟩ := h
  constructor
  · unfold cross2 at h1 ⊢
    linarith
  · unfold dot2 at h2 ⊢
    linarith

/-- The Lagrange-style identities that make `SameDir` transitive through
a nonzero middle vector. -/
lemma cross2_trans_identity (u v w : Q2) :
    dot2 v v * cross2 u w =
      cross2 u v * dot2 w v + dot2 u v * cross2 v w := by
  obtain ⟨u1, u2⟩ := u; obtain ⟨v1, v2⟩ := v; obtain ⟨w1, w2⟩ := w
  unfold cross2 dot2
  ring

lemma dot2_trans_identity (u v w : Q2) :
    dot2 v v * dot2 u w =
      dot2 u v * dot2 w v + cross2 u v * cross2 w v := by
  obtain ⟨u1, u2⟩ := u; obtain ⟨v1, v2⟩ := v; obtain ⟨w1, w2⟩ := w
  unfold cross2 dot2
  ring

lemma SameDir.trans (u v w : Q2) (h1 : SameDir u v) (h2 : SameDir v w) :
    SameDir u w := by
  have hv : v ≠ (0, 0) := SameDir.ne_zero_right u v h1
  have hvv : 0 < dot2 v v := dot2_self_pos v hv
  have hdwv : 0 < dot2 w v := by
    have := (SameDir.symm v w h2).2
    unfold dot2 at this ⊢
    linarith
  constructor
  · have hid := cross2_trans_identity u v w
    rw [h1.1, h2.1] at hid
    simp only [zero_mul, mul_zero, add_zero] at hid
    exact (mul_eq_zero.mp hid).resolve_left (ne_of_gt hvv)
  · have hid := dot2_trans_identity u v w
    rw [h1.1] at hid
    simp only [zero_mul, add_zero] at hid
    have hpos : 0 < dot2 u v * dot2 w v := mul_pos h1.2 hdwv
    nlinarith

lemma SameDir.add (d u v : Q2) (h1 : SameDir d u) (h2 : SameDir d v) :
    SameDir d (add2 u v) := by
  obtain ⟨d1, d2⟩ := d; obtain ⟨u1, u2⟩ := u; obtain ⟨v1, v2⟩ := v
  simp only [SameDir, cross2, dot2, add2] at h1 h2 ⊢
  obtain ⟨c1, p1⟩ := h1
  obtain ⟨c2, p2⟩ := h2
  constructor
  · linarith
  · linarith

/-! #### The removal pass as an index filter -/

lemma removeVertices_map_succ (x : Q2) (b : Polygon) (idxs : List ℕ) :
    removeVertices (x :: b) (idxs.map (· + 1)) = x :: removeVertices b idxs := by
  induction idxs with
  | nil => rfl
  | cons i is ih =>
    show (removeVertices (x :: b) (is.map (· + 1))).eraseIdx (i + 1) =
      x :: (removeVertices b is).eraseIdx i
    rw [ih, List.eraseIdx_cons_succ]

/-- Erasing an ascending index list from the back is the same as keeping
the complementary indices: the first pass records `filter p (range n)`
and the second erases it index-descending. -/
lemma removeVertices_filter (b : Polygon) :
    ∀ p : ℕ → Bool,
      removeVertices b ((List.range b.length).filter p) =
        ((List.range b.length).filter (fun i => !p i)).map
          (fun i => b.getD i (0, 0)) := by
  induction b with
  | nil => intro p; rfl
  | cons x b ih =>
    intro p
    rw [List.length_cons, List.range_succ_eq_map]
    rw [List.filter_cons, List.filter_cons]
    have hfm : ∀ q : ℕ → Bool,
        (List.filter q (List.map Nat.succ (List.range b.length))) =
          List.map Nat.succ
            (List.filter (fun i => q (Nat.succ i)) (List.range b.length)) := by
      intro q
      rw [List.filter_map]
      rfl
    have hsucc : List.map Nat.succ = List.map (· + 1) := by
      funext l
      apply List.map_congr_left
      intro a _
      rfl
    by_cases hp : p 0
    · simp only [hp, if_pos, Bool.not_true, if_neg, Bool.false_eq_true,
        not_false_iff]
      rw [hfm, hfm, hsucc]
      show (removeVertices (x :: b)
        ((List.filter (fun i => p (Nat.succ i))
          (List.range b.length)).map (· + 1))).eraseIdx 0 = _
      rw [removeVertices_map_succ, List.eraseIdx_cons_zero, ih]
      rw [List.map_map]
      apply List.map_congr_left
      intro a _
      simp
    · simp only [hp, if_neg, Bool.not_false, if_pos, Bool.false_eq_true,
        not_false_iff]
      rw [hfm, hfm, hsucc]
      rw [removeVertices_map_succ, ih]
      rw [List.map_cons, List.map_map]
      congr 1

/-! #### Edge directions, runs of collinear edges, and the amended C6 -/

/-- The direction vector of edge `i` of a boundary. -/
def dirE (b : Polygon) (i : ℕ) : Q2 := sub2 (vtx b (i + 1)) (vtx b i)

lemma sub2_add_sub2 (x y z : Q2) : add2 (sub2 x y) (sub2 y z) = sub2 x z := by
  unfold add2 sub2
  obtain ⟨x1, x2⟩ := x; obtain ⟨y1, y2⟩ := y; obtain ⟨z1, z2⟩ := z
  simp only [Prod.mk.injEq]
  constructor <;> ring

lemma sameSuppLine_consec (b : Polygon) (i : ℕ) (hi : 1 ≤ i) :
    sameSuppLine (edge b (i - 1)) (edge b i) ↔ SameDir (dirE b (i - 1)) (dirE b i) := by
  have hi1 : i - 1 + 1 = i := by omega
  simp only [sameSuppLine, edge, dirE, SameDir, hi1]
  constructor
  · rintro ⟨a, c, _⟩; exact ⟨a, c⟩
  · rintro ⟨a, c⟩
    exact ⟨a, c, cross2_self _⟩

lemma dirE_ne_zero (b : Polygon) (hnd : ∀ i < b.length, vtx b i ≠ vtx b (i + 1))
    (i : ℕ) (hi : i < b.length) : dirE b i ≠ (0, 0) :=
  sub2_ne_zero _ _ (Ne.symm (hnd i hi))

lemma chain_sameDir (b : Polygon)
    (hnd : ∀ i < b.length, vtx b i ≠ vtx b (i + 1)) :
    ∀ (k a : ℕ), a + k < b.length →
      (∀ t, a < t → t ≤ a + k → sameSuppLine (edge b (t - 1)) (edge b t)) →
      SameDir (dirE b a) (dirE b (a + k)) := by
  intro k
  induction k with
  | zero =>
    intro a ha _
    exact SameDir.refl_of_ne _ (dirE_ne_zero b hnd a (by omega))
  | succ k ih =>
    intro a ha hP
    have h1 : SameDir (dirE b a) (dirE b (a + k)) :=
      ih a (by omega) (fun t ht1 ht2 => hP t ht1 (by omega))
    have h2 : sameSuppLine (edge b (a + k + 1 - 1)) (edge b (a + k + 1)) :=
      hP (a + k + 1) (by omega) (by omega)
    have h2' : SameDir (dirE b (a + k)) (dirE b (a + k + 1)) := by
      have h3 := (sameSuppLine_consec b (a + k + 1) (by omega)).mp h2
      simpa using h3
    exact SameDir.trans _ _ _ h1 h2'

lemma run_sameDir (b : Polygon)
    (hnd : ∀ i < b.length, vtx b i ≠ vtx b (i + 1)) :
    ∀ (k a : ℕ), 1 ≤ k → a + k ≤ b.length →
      (∀ t, a < t → t < a + k → sameSuppLine (edge b (t - 1)) (edge b t)) →
      SameDir (dirE b a) (sub2 (vtx b (a + k)) (vtx b a)) := by
  intro k
  induction k with
  | zero => intro a h1; omega
  | succ k ih =>
    intro a h1 h2 hP
    by_cases hk : k = 0
    · subst hk
      show SameDir (dirE b a) (sub2 (vtx b (a + 1)) (vtx b a))
      exact SameDir.refl_of_ne _ (dirE_ne_zero b hnd a (by omega))
    · have hk1 : 1 ≤ k := by omega
      have hrec := ih a hk1 (by omega) (fun t ht1 ht2 => hP t ht1 (by omega))
      have hlast : SameDir (dirE b a) (dirE b (a + k)) :=
        chain_sameDir b hnd k a (by omega) (fun t ht1 ht2 => hP t ht1 (by omega))
      have hdecomp : sub2 (vtx b (a + (k + 1))) (vtx b a) =
          add2 (dirE b (a + k)) (sub2 (vtx b (a + k)) (vtx b a)) := by
        show sub2 (vtx b (a + (k + 1))) (vtx b a) =
          add2 (sub2 (vtx b (a + k + 1)) (vtx b (a + k))) (sub2 (vtx b (a + k)) (vtx b a))
        rw [sub2_add_sub2]
        rfl
      rw [hdecomp]
      exact SameDir.add _ _ _ hlast hrec

lemma pairwise_lt_get (K : List ℕ) (h : K.Pairwise (· < ·)) (i j : ℕ)
    (hi : i < K.length) (hj : j < K.length) (hij : i < j) :
    K.get ⟨i, hi⟩ < K.get ⟨j, hj⟩ :=
  List.pairwise_iff_get.mp h ⟨i, hi⟩ ⟨j, hj⟩ hij

lemma sorted_not_mem_between (K : List ℕ) (h : K.Pairwise (· < ·)) (j t : ℕ)
    (hj1 : j + 1 < K.length)
    (h1 : K.get ⟨j, by omega⟩ < t) (h2 : t < K.get ⟨j + 1, hj1⟩) : t ∉ K := by
  intro ht
  obtain ⟨u, hut⟩ := List.mem_iff_get.mp ht
  rcases lt_or_ge u.val (j + 1) with hlt | hge
  · have hle : K.get u ≤ K.get ⟨j, by omega⟩ := by
      rcases eq_or_lt_of_le (Nat.lt_succ_iff.mp hlt) with he | hl
      · exact le_of_eq (by congr 1; exact Fin.ext he)
      · exact le_of_lt (pairwise_lt_get K h u.val j u.isLt (by omega) hl)
    omega
  · have hge2 : K.get ⟨j + 1, hj1⟩ ≤ K.get u := by
      rcases eq_or_lt_of_le hge with he | hl
      · exact le_of_eq (by congr 1; exact Fin.ext he)
      · exact le_of_lt (pairwise_lt_get K h (j + 1) u.val hj1 u.isLt hl)
    omega

lemma sorted_not_mem_after (K : List ℕ) (h : K.Pairwise (· < ·)) (t : ℕ)
    (hm : 0 < K.length) (ht : K.get ⟨K.length - 1, by omega⟩ < t) : t ∉ K := by
  intro htm
  obtain ⟨u, hut⟩ := List.mem_iff_get.mp htm
  have hle : K.get u ≤ K.get ⟨K.length - 1, by omega⟩ := by
    rcases eq_or_lt_of_le (Nat.lt_succ_iff.mp (by omega : u.val < K.length - 1 + 1)) with he | hl
    · exact le_of_eq (by congr 1; exact Fin.ext he)
    · exact le_of_lt (pairwise_lt_get K h u.val (K.length - 1) u.isLt (by omega) hl)
  omega

lemma sorted_head_zero (K : List ℕ) (h : K.Pairwise (· < ·)) (h0 : 0 ∈ K)
    (hm : 0 < K.length) : K.get ⟨0, hm⟩ = 0 := by
  obtain ⟨u, hut⟩ := List.mem_iff_get.mp h0
  rcases Nat.eq_zero_or_pos u.val with he | hl
  · have heq : (⟨0, hm⟩ : Fin K.length) = u := Fin.ext he.symm
    rw [heq, hut]
  · have hlt := pairwise_lt_get K h 0 u.val hm u.isLt hl
    simp only [Fin.eta] at hlt
    omega

/-- C6 (amended): after `simplifyPolygon`, the hole boundaries are
unchanged (the source only simplifies the outer boundary), and on the
simplified outer boundary no two consecutive edges meeting at a vertex
other than the first vertex lie on the same supporting line: every
maximal run of collinear original edges is merged into one edge, and two
adjacent merged edges meet at a surviving scanned vertex whose original
edge pair was not collinear.  The cyclic pair of edges around vertex `0`
is never scanned and may remain collinear (see the counterexample).
Requires all edges of the boundary to be non-degenerate (a simple
polygon).  -/
theorem simplifyPolygon_merges_scanned_pairs (poly : PolygonWithHoles)
    (hnd : ∀ i < poly.outer.length, vtx poly.outer i ≠ vtx poly.outer (i + 1)) :
    (simplifyPolygon poly).1.holes = poly.holes ∧
      ∀ j, 1 ≤ j → j < (simplifyPolygon poly).1.outer.length →
        ¬sameSuppLine (edge ((simplifyPolygon poly).1.outer) (j - 1))
          (edge ((simplifyPolygon poly).1.outer) j) := by
  refine ⟨rfl, ?_⟩
  intro j hj1 hjm hss
  set b := poly.outer with hb
  have houter : (simplifyPolygon poly).1.outer =
      ((List.range b.length).filter
        (fun i => !(decide (1 ≤ i ∧
          sameSuppLine (edge b (i - 1)) (edge b i))))).map
        (fun i => b.getD i (0, 0)) := by
    show removeVertices b (verticesToRemove b) = _
    rw [verticesToRemove, removeVertices_filter]
  set K := (List.range b.length).filter
    (fun i => !(decide (1 ≤ i ∧ sameSuppLine (edge b (i - 1)) (edge b i)))) with hK
  have hKmem : ∀ t, t ∈ K ↔ t < b.length ∧
      ¬(1 ≤ t ∧ sameSuppLine (edge b (t - 1)) (edge b t)) := by
    intro t
    rw [hK, List.mem_filter, List.mem_range]
    simp only [Bool.not_eq_true', decide_eq_false_iff_not]
  have hKpw : K.Pairwise (· < ·) := List.Pairwise.filter _ (List.pairwise_lt_range _)
  have hmlen : (simplifyPolygon poly).1.outer.length = K.length := by
    rw [houter, List.length_map]
  have hjm' : j < K.length := by rw [← hmlen]; exact hjm
  have hj1m : j - 1 < K.length := by omega
  have hKlt : ∀ (i : ℕ) (hi : i < K.length), K.get ⟨i, hi⟩ < b.length := by
    intro i hi
    have := (hKmem _).mp (K.get_mem i hi)
    exact this.1
  have hn : 0 < b.length := lt_of_le_of_lt (Nat.zero_le _) (hKlt j hjm')
  have h0K : 0 ∈ K := (hKmem 0).mpr ⟨hn, by simp⟩
  have hK0 : K.get ⟨0, by omega⟩ = 0 :=
    sorted_head_zero K hKpw h0K (by omega)
  -- positions
  have hv : ∀ (i : ℕ) (hi : i < K.length),
      vtx ((simplifyPolygon poly).1.outer) i = vtx b (K.get ⟨i, hi⟩) := by
    intro i hi
    simp only [vtx, houter, List.length_map]
    rw [Nat.mod_eq_of_lt hi, Nat.mod_eq_of_lt (hKlt i hi)]
    rw [List.getD_eq_getElem _ _ (by simpa using hi), List.getElem_map]
    rfl
  have hvm : vtx ((simplifyPolygon poly).1.outer) K.length = vtx b b.length := by
    simp only [vtx, houter, List.length_map, Nat.mod_self]
    rw [List.getD_eq_getElem _ _ (by simpa using (by omega : 0 < K.length)),
      List.getElem_map]
    exact congrArg (fun t => List.getD b t (0, 0)) hK0
  set a := K.get ⟨j - 1, hj1m⟩ with ha
  set s := K.get ⟨j, hjm'⟩ with hs2
  have has : a < s := pairwise_lt_get K hKpw (j - 1) j hj1m hjm' (by omega)
  have hsn : s < b.length := hKlt j hjm'
  have h1s : 1 ≤ s := by
    have hlt := pairwise_lt_get K hKpw 0 j (by omega) hjm' (by omega)
    rw [hK0] at hlt
    omega
  have hsK : s ∈ K := K.get_mem j hjm'
  have hsNotRem : ¬(1 ≤ s ∧ sameSuppLine (edge b (s - 1)) (edge b s)) :=
    ((hKmem s).mp hsK).2
  obtain ⟨e, hse, hen, hint2, hvE⟩ : ∃ e, s < e ∧ e ≤ b.length ∧
      (∀ t, s < t → t < e → t ∉ K) ∧
      vtx ((simplifyPolygon poly).1.outer) (j + 1) = vtx b e := by
    by_cases hjlast : j + 1 < K.length
    · refine ⟨K.get ⟨j + 1, hjlast⟩,
        pairwise_lt_get K hKpw j (j + 1) hjm' hjlast (by omega),
        le_of_lt (hKlt _ hjlast), ?_, hv (j + 1) hjlast⟩
      intro t h1 h2
      exact sorted_not_mem_between K hKpw j t hjlast h1 h2
    · have hj2 : j = K.length - 1 := by omega
      refine ⟨b.length, hsn, le_refl _, ?_, ?_⟩
      · intro t h1 h2
        apply sorted_not_mem_after K hKpw t (by omega)
        have hcast : K.get ⟨K.length - 1, by omega⟩ = s :=
          congrArg K.get (Fin.ext (by show K.length - 1 = j; omega))
        rw [hcast]
        exact h1
      · have hj3 : j + 1 = K.length := by omega
        convert hvm using 2
  have hint1 : ∀ t, a < t → t < s → t ∉ K := by
    intro t h1 h2
    have hcast : K.get ⟨j - 1 + 1, by omega⟩ = s :=
      congrArg K.get (Fin.ext (by show j - 1 + 1 = j; omega))
    apply sorted_not_mem_between K hKpw (j - 1) t (by omega)
    · exact h1
    · rw [hcast]
      exact h2
  have hrem : ∀ t, t < b.length → t ∉ K →
      sameSuppLine (edge b (t - 1)) (edge b t) := by
    intro t h1 h2
    by_contra hcon
    exact h2 ((hKmem t).mpr ⟨h1, fun hh => hcon hh.2⟩)
  have hP1 : ∀ t, a < t → t < s → sameSuppLine (edge b (t - 1)) (edge b t) :=
    fun t u v => hrem t (by omega) (hint1 t u v)
  have hP2 : ∀ t, s < t → t < e → sameSuppLine (edge b (t - 1)) (edge b t) :=
    fun t u v => hrem t (by omega) (hint2 t u v)
  have hrun1 : SameDir (dirE b a) (sub2 (vtx b s) (vtx b a)) := by
    have hrr := run_sameDir b hnd (s - a) a (by omega) (by omega)
      (fun t h1 h2 => hP1 t h1 (by omega))
    rw [show a + (s - a) = s from by omega] at hrr
    exact hrr
  have hchain1 : SameDir (dirE b a) (dirE b (s - 1)) := by
    have hcc := chain_sameDir b hnd (s - 1 - a) a (by omega)
      (fun t h1 h2 => hP1 t h1 (by omega))
    rw [show a + (s - 1 - a) = s - 1 from by omega] at hcc
    exact hcc
  have hd1 : SameDir (dirE b (s - 1)) (sub2 (vtx b s) (vtx b a)) :=
    SameDir.trans _ _ _ (SameDir.symm _ _ hchain1) hrun1
  have hrun2 : SameDir (dirE b s) (sub2 (vtx b e) (vtx b s)) := by
    have hrr := run_sameDir b hnd (e - s) s (by omega) (by omega)
      (fun t h1 h2 => hP2 t h1 (by omega))
    rw [show s + (e - s) = e from by omega] at hrr
    exact hrr
  have hssd := (sameSuppLine_consec ((simplifyPolygon poly).1.outer) j hj1).mp hss
  have hdir1 : dirE ((simplifyPolygon poly).1.outer) (j - 1) =
      sub2 (vtx b s) (vtx b a) := by
    unfold dirE
    rw [show j - 1 + 1 = j from by omega, hv j hjm', hv (j - 1) hj1m]
  have hdir2 : dirE ((simplifyPolygon poly).1.outer) j =
      sub2 (vtx b e) (vtx b s) := by
    unfold dirE
    rw [hvE, hv j hjm']
  rw [hdir1, hdir2] at hssd
  have hfinal : SameDir (dirE b (s - 1)) (dirE b s) :=
    SameDir.trans _ _ _ (SameDir.trans _ _ _ hd1 hssd) (SameDir.symm _ _ hrun2)
  exact hsNotRem ⟨h1s, (sameSuppLine_consec b s h1s).mpr hfinal⟩

/-- The square with a collinear midpoint vertex at a scanned position,
used as the C6 witness input. -/
def pwhW : PolygonWithHoles := ⟨[(0, 0), (1, 0), (2, 0), (2, 2), (0, 2)], []⟩

/-- Witness for the amended C6: on a concrete boundary with one scanned
collinear vertex, the simplified outer boundary has no scanned collinear
pair left and the holes are untouched. -/
theorem simplifyPolygon_merges_scanned_pairs_witness :
    (∀ i < pwhW.outer.length, vtx pwhW.outer i ≠ vtx pwhW.outer (i + 1)) ∧
      ((simplifyPolygon pwhW).1.holes = pwhW.holes ∧
        ∀ j, 1 ≤ j → j < (simplifyPolygon pwhW).1.outer.length →
          ¬sameSuppLine (edge ((simplifyPolygon pwhW).1.outer) (j - 1))
            (edge ((simplifyPolygon pwhW).1.outer) j)) := by
  have hnd : ∀ i < pwhW.outer.length,
      vtx pwhW.outer i ≠ vtx pwhW.outer (i + 1) := by
    intro i hi
    simp only [pwhW, List.length_cons, List.length_nil] at hi
    interval_cases i <;> norm_num [vtx, pwhW, Prod.ext_iff]
  exact ⟨hnd, simplifyPolygon_merges_scanned_pairs pwhW hnd⟩

end Detail

/-! ## Boundary synchronizer (`correctSharedVertices`, C2)

The vertex-level model of `TriangleDetail` used by the synchronization
protocol: the original triangle's exact 3D vertices, the supporting
plane's 2D parametrization together with its inverse (CGAL guarantees
`to_2d (to_3d v) = v`), and the stored polygons of each color as an
association list (`std::map` iteration order is the stored list
order). -/

namespace Sync

/-- Lexicographic comparison of exact 3D points: CGAL `Point_3`'s
`operator<` (`compare_xyz`), the order in which `std::set<Point3>`
iterates. -/
def le3 (p q : Q3) : Prop :=
  p.1 < q.1 ∨ (p.1 = q.1 ∧ (p.2.1 < q.2.1 ∨ (p.2.1 = q.2.1 ∧ p.2.2 ≤ q.2.2)))

instance le3Dec : DecidableRel le3 := fun p q => by
  unfold le3
  infer_instance

instance le3Total : IsTotal Q3 le3 := by
  constructor
  intro a b
  unfold le3
  rcases lt_trichotomy a.1 b.1 with h | h | h
  · exact Or.inl (Or.inl h)
  · rcases lt_trichotomy a.2.1 b.2.1 with h2 | h2 | h2
    · exact Or.inl (Or.inr ⟨h, Or.inl h2⟩)
    · rcases le_total a.2.2 b.2.2 with h3 | h3
      · exact Or.inl (Or.inr ⟨h, Or.inr ⟨h2, h3⟩⟩)
      · exact Or.inr (Or.inr ⟨h.symm, Or.inr ⟨h2.symm, h3⟩⟩)
    · exact Or.inr (Or.inr ⟨h.symm, Or.inl h2⟩)
  · exact Or.inr (Or.inl h)

instance le3Trans : IsTrans Q3 le3 := by
  constructor
  intro a b c hab hbc
  unfold le3 at *
  rcases hab with h1 | ⟨e1, h1⟩ <;> rcases hbc with h2 | ⟨e2, h2⟩
  · exact Or.inl (lt_trans h1 h2)
  · exact Or.inl (e2 ▸ h1)
  · exact Or.inl (e1 ▸ h2)
  · refine Or.inr ⟨e1.trans e2, ?_⟩
    rcases h1 with h1 | ⟨f1, h1⟩ <;> rcases h2 with h2 | ⟨f2, h2⟩
    · exact Or.inl (lt_trans h1 h2)
    · exact Or.inl (f2 ▸ h1)
    · exact Or.inl (f1 ▸ h2)
    · exact Or.inr ⟨f1.trans f2, le_trans h1 h2⟩

instance le3Antisymm : IsAntisymm Q3 le3 := by
  constructor
  intro a b hab hba
  obtain ⟨a1, a2, a3⟩ := a
  obtain ⟨b1, b2, b3⟩ := b
  unfold le3 at hab hba
  simp only [Prod.mk.injEq]
  dsimp only at hab hba
  rcases hab with h1 | ⟨e1, h1⟩ <;> rcases hba with h2 | ⟨e2, h2⟩ <;>
    first
    | (exfalso; linarith)
    | (refine ⟨by linarith, ?_, ?_⟩ <;>
        [rcases h1 with h1 | ⟨f1, h1⟩ <;> rcases h2 with h2 | ⟨f2, h2⟩ <;>
          linarith;
         rcases h1 with h1 | ⟨f1, h1⟩ <;> rcases h2 with h2 | ⟨f2, h2⟩ <;>
          linarith])

/-- The raw affine data of `mOriginalPlane`: `to_3d (u, v) = o + u·b1 +
v·b2`, and `to_2d q = (c1 + d1·q, c2 + d2·q)` (both CGAL plane
parametrization maps are affine). -/
structure PlaneRaw where
  o : Q3
  b1 : Q3
  b2 : Q3
  c1 : ℚ
  c2 : ℚ
  d1 : Q3
  d2 : Q3
deriving DecidableEq

/-- `Plane_3::to_3d`. -/
def to3d (m : PlaneRaw) (p : Q2) : Q3 :=
  add3 m.o (add3 (smul3 p.1 m.b1) (smul3 p.2 m.b2))

/-- `Plane_3::to_2d`. -/
def to2d (m : PlaneRaw) (q : Q3) : Q2 :=
  (m.c1 + dot3 m.d1 q, m.c2 + dot3 m.d2 q)

/-- A supporting plane parametrization with the CGAL guarantee
`to_2d ∘ to_3d = id` on the plane's 2D coordinates. -/
structure PlaneMap extends PlaneRaw where
  leftInv : ∀ v : Q2, to2d toPlaneRaw (to3d toPlaneRaw v) = v

/-- `Line_2(a, b).has_on(p)` (exact orientation test). -/
def lineHasOn2 (a b p : Q2) : Prop :=
  cross2 (sub2 b a) (sub2 p a) = 0

instance lineHasOn2Dec (a b p : Q2) : Decidable (lineHasOn2 a b p) := by
  unfold lineHasOn2
  infer_instance

/-- `Segment_2(a, b).has_on(p)` (exact): collinear and within the
segment's span; a degenerate segment contains only its endpoint. -/
def segHasOn2 (a b p : Q2) : Prop :=
  cross2 (sub2 b a) (sub2 p a) = 0 ∧
    0 ≤ dot2 (sub2 p a) (sub2 b a) ∧
    dot2 (sub2 p a) (sub2 b a) ≤ dot2 (sub2 b a) (sub2 b a) ∧
    (a = b → p = a)

instance segHasOn2Dec (a b p : Q2) : Decidable (segHasOn2 a b p) := by
  unfold segHasOn2
  infer_instance

/-- The synchronizer's view of a `TriangleDetail`: the original
triangle's vertices, the supporting plane, and the stored polygon sets
by color. -/
structure TriangleDetail where
  v0 : Q3
  v1 : Q3
  v2 : Q3
  plane : PlaneMap
  coloredPolys : List (ℕ × List Detail.PolygonWithHoles)

/-- The vertex list of the original triangle. -/
def verts (td : TriangleDetail) : List Q3 := [td.v0, td.v1, td.v2]

/-- The double loop of `findSharedEdge`: every pair `(i, j)` with
`myPoint == otherPoint` contributes `myPoint`, in loop order. -/
def commonPoints (A B : TriangleDetail) : List Q3 :=
  (verts A).flatMap (fun p =>
    (verts B).filterMap (fun q => if q = p then some p else none))

/-- `TriangleDetail::findSharedEdge`: the segment between the two common
vertices; the source `assert`s that exactly two are found (manifold
precondition). -/
def findSharedEdge (A B : TriangleDetail) : Option (Q3 × Q3) :=
  match commonPoints A B with
  | p :: q :: _ => some (p, q)
  | _ => none

/-- All outer-boundary vertices stored in a colored polygon list, in
iteration order. -/
def allOuterVerts (colored : List (ℕ × List Detail.PolygonWithHoles)) :
    List Q2 :=
  colored.flatMap (fun pr => pr.2.flatMap (fun poly => poly.outer))

/-- `TriangleDetail::findPointsOnEdge` as the list it inserts into the
returned `std::set`: every outer-boundary vertex of every color lying on
the 2D line of the shared edge, mapped back to 3D. -/
def pointsOnEdgeList (td : TriangleDetail) (e : Q3 × Q3) : List Q3 :=
  td.coloredPolys.flatMap (fun pr =>
    pr.2.flatMap (fun poly =>
      (poly.outer.filter (fun v =>
        decide (lineHasOn2 (to2d td.plane.toPlaneRaw e.1)
          (to2d td.plane.toPlaneRaw e.2) v))).map
        (fun v => to3d td.plane.toPlaneRaw v)))

/-- `TriangleDetail::findPointsOnEdge` (the resulting set). -/
def findPointsOnEdge (td : TriangleDetail) (e : Q3 × Q3) : Finset Q3 :=
  (pointsOnEdgeList td e).toFinset

/-- The vertex loop of `addMissingPoints` over one outer boundary.
The stored polygon is `done ++ rest` with the iterator at the head of
`rest` and `first` the current first vertex (the `nextVertIt` of the
last vertex wraps to `vertices_begin()`).  At each vertex `v` with
successor `nxt`: stop when all points are placed; if both `v` and `nxt`
lie on the shared edge, find the first remaining point on the segment
`v nxt`, splice it in after `v` and stay at `v` (an insertion before
`vertices_begin()` puts the point at the front of the list); otherwise
advance.  Returns the new boundary and the points not yet placed. -/
def scanPoly (se2 : Q2 × Q2) :
    Q2 → List Q2 → List Q2 → List Q2 → List Q2 × List Q2
  | _, pts, done, [] => (done, pts)
  | first, pts, done, v :: rest =>
    if pts = [] then (done ++ v :: rest, pts)
    else
      let nxt := match rest with | [] => first | n :: _ => n
      if segHasOn2 se2.1 se2.2 v ∧ segHasOn2 se2.1 se2.2 nxt then
        match hfind : pts.find? (fun p => decide (segHasOn2 v nxt p)) with
        | some p =>
          match rest with
          | [] => scanPoly se2 p (pts.erase p) (p :: done) [v]
          | n :: rest' => scanPoly se2 first (pts.erase p) done (v :: p :: n :: rest')
        | none => scanPoly se2 first pts (done ++ [v]) rest
      else scanPoly se2 first pts (done ++ [v]) rest
termination_by _ pts _ rest => (pts.length, rest.length)
decreasing_by
  · have hp := List.mem_of_find?_eq_some hfind
    have := List.length_erase_of_mem hp
    have : pts.length ≠ 0 := fun h => by
      rw [List.length_eq_zero] at h
      exact absurd (h ▸ hp) (List.not_mem_nil p)
    apply Prod.Lex.left
    omega
  · have hp := List.mem_of_find?_eq_some hfind
    have := List.length_erase_of_mem hp
    have : pts.length ≠ 0 := fun h => by
      rw [List.length_eq_zero] at h
      exact absurd (h ▸ hp) (List.not_mem_nil p)
    apply Prod.Lex.left
    omega
  · apply Prod.Lex.right
    simp only [List.length_cons]
    omega
  · apply Prod.Lex.right
    simp only [List.length_cons]
    omega

/-- The polygon loop of `addMissingPoints` for one color: scan each
polygon's outer boundary in turn, threading the remaining points. -/
def scanPolys (se2 : Q2 × Q2) :
    List Detail.PolygonWithHoles → List Q2 →
      List Detail.PolygonWithHoles × List Q2
  | [], pts => ([], pts)
  | poly :: ps, pts =>
    let r := scanPoly se2 (poly.outer.headD (0, 0)) pts [] poly.outer
    let rec2 := scanPolys se2 ps r.2
    (⟨r.1, poly.holes⟩ :: rec2.1, rec2.2)

/-- The color loop of `addMissingPoints`: process every color's polygon
list (in stored `std::map` order), threading the remaining points. -/
def scanColors (se2 : Q2 × Q2) :
    List (ℕ × List Detail.PolygonWithHoles) → List Q2 →
      List (ℕ × List Detail.PolygonWithHoles) × List Q2
  | [], pts => ([], pts)
  | (c, ps) :: colored, pts =>
    let r := scanPolys se2 ps pts
    let rec2 := scanColors se2 colored r.2
    ((c, r.1) :: rec2.1, rec2.2)

/-- The 2D image, in `std::set` iteration order, of the points missing
on this side. -/
def missing2D (td : TriangleDetail) (myPoints theirPoints : Finset Q3) :
    List Q2 :=
  ((theirPoints \ myPoints).sort le3).map (to2d td.plane.toPlaneRaw)

/-- The 2D shared segment on this side's plane. -/
def sharedEdge2D (td : TriangleDetail) (e : Q3 × Q3) : Q2 × Q2 :=
  (to2d td.plane.toPlaneRaw e.1, to2d td.plane.toPlaneRaw e.2)

/-- `TriangleDetail::addMissingPoints`: compute the set difference of
the boundary point sets; if nothing is missing return `false` without
touching the state; otherwise map the missing points to this plane and
splice each of them into a boundary edge lying on the shared edge.
(The source `assert`s that every point finds an edge.) -/
def addMissingPoints (td : TriangleDetail) (myPoints theirPoints : Finset Q3)
    (e : Q3 × Q3) : TriangleDetail × Bool :=
  if theirPoints \ myPoints = ∅ then (td, false)
  else
    let r := scanColors (sharedEdge2D td e) td.coloredPolys
      (missing2D td myPoints theirPoints)
    ({ td with coloredPolys := r.1 }, true)

/-- The points that remained unplaced at the end of the insertion loop
(the source asserts this is empty: `assert(points2D.empty())`). -/
def leftoverPoints (td : TriangleDetail) (myPoints theirPoints : Finset Q3)
    (e : Q3 × Q3) : List Q2 :=
  (scanColors (sharedEdge2D td e) td.coloredPolys
    (missing2D td myPoints theirPoints)).2

/-- `TriangleDetail::correctSharedVertices`: find the shared edge,
collect both sides' boundary points on it, then insert each side's
missing points; returns the two updated details and, per side, whether
any point was inserted.  When the two originals do not share exactly two
vertices the source asserts (precondition); that case is modelled as a
no-op. -/
def correctSharedVertices (A B : TriangleDetail) :
    (TriangleDetail × TriangleDetail) × (Bool × Bool) :=
  match findSharedEdge A B with
  | none => ((A, B), (false, false))
  | some e =>
    let myPoints := findPointsOnEdge A e
    let theirPoints := findPointsOnEdge B e
    let rA := addMissingPoints A myPoints theirPoints e
    let rB := addMissingPoints B theirPoints myPoints e
    ((rA.1, rB.1), (rA.2, rB.2))

/-! ### Geometry of the shared edge -/

lemma smul_rep2 (u x : Q2) (h : cross2 u x = 0) :
    smul2 (dot2 u u) x = smul2 (dot2 x u) u := by
  obtain ⟨u1, u2⟩ := u; obtain ⟨x1, x2⟩ := x
  simp only [cross2] at h
  simp only [smul2, dot2, Prod.mk.injEq]
  constructor
  · linear_combination (-u2) * h
  · linear_combination u1 * h

lemma cross2_smul_right (d : Q2) (k : ℚ) (x : Q2) :
    cross2 d (smul2 k x) = k * cross2 d x := by
  obtain ⟨d1, d2⟩ := d; obtain ⟨x1, x2⟩ := x
  simp only [cross2, smul2]
  ring

lemma cross2_add_right (d u v : Q2) :
    cross2 d (add2 u v) = cross2 d u + cross2 d v := by
  obtain ⟨d1, d2⟩ := d; obtain ⟨u1, u2⟩ := u; obtain ⟨v1, v2⟩ := v
  simp only [cross2, add2]
  ring

/-- A point on a segment whose endpoints lie on the shared segment lies
on the shared edge's supporting line. -/
lemma seg_point_on_line (s1 s2 v w p : Q2)
    (hv : segHasOn2 s1 s2 v) (hw : segHasOn2 s1 s2 w)
    (hp : segHasOn2 v w p) : lineHasOn2 s1 s2 p := by
  by_cases hvw : v = w
  · have hpv : p = v := hp.2.2.2 hvw
    rw [hpv]
    exact hv.1
  · have hwv : sub2 w v ≠ (0, 0) := Detail.sub2_ne_zero w v (Ne.symm hvw)
    have hww : 0 < dot2 (sub2 w v) (sub2 w v) := Detail.dot2_self_pos _ hwv
    -- p - v is a multiple of w - v
    have hrep : smul2 (dot2 (sub2 w v) (sub2 w v)) (sub2 p v) =
        smul2 (dot2 (sub2 p v) (sub2 w v)) (sub2 w v) :=
      smul_rep2 _ _ hp.1
    unfold lineHasOn2 at *
    set d := sub2 s2 s1 with hd
    -- cross d (w - v) = 0 from the two endpoint conditions
    have hcvw : cross2 d (sub2 w v) = 0 := by
      have hsplit : add2 (sub2 w s1) (sub2 s1 v) = sub2 w v :=
        Detail.sub2_add_sub2 w s1 v
      have h2 : cross2 d (sub2 s1 v) = -cross2 d (sub2 v s1) := by
        obtain ⟨a1, a2⟩ := d
        obtain ⟨b1, b2⟩ := v
        obtain ⟨c1, c2⟩ := s1
        simp only [cross2, sub2]
        ring
      rw [← hsplit, cross2_add_right, hw.1, h2, hv.1]
      ring
    -- cross d (p - v) = 0 by scaling
    have hcpv : cross2 d (sub2 p v) = 0 := by
      have h1 : cross2 d (smul2 (dot2 (sub2 w v) (sub2 w v)) (sub2 p v)) =
          dot2 (sub2 w v) (sub2 w v) * cross2 d (sub2 p v) :=
        cross2_smul_right _ _ _
      have h2 : cross2 d (smul2 (dot2 (sub2 p v) (sub2 w v)) (sub2 w v)) =
          dot2 (sub2 p v) (sub2 w v) * cross2 d (sub2 w v) :=
        cross2_smul_right _ _ _
      rw [hrep, h2, hcvw, mul_zero] at h1
      exact (mul_eq_zero.mp h1.symm).resolve_left (ne_of_gt hww)
    -- combine: cross d (p - s1) = cross d (p - v) + cross d (v - s1)
    have hsplit2 : add2 (sub2 p v) (sub2 v s1) = sub2 p s1 :=
      Detail.sub2_add_sub2 p v s1
    rw [← hsplit2, cross2_add_right, hcpv, hv.1]
    ring

/-- Extract the affine parameter of a point on a (non-degenerate) 2D
line. -/
lemma lineHasOn2_param (a b v : Q2) (hab : a ≠ b) (h : lineHasOn2 a b v) :
    ∃ s : ℚ, v = add2 a (smul2 s (sub2 b a)) := by
  have hd : sub2 b a ≠ (0, 0) := Detail.sub2_ne_zero b a (Ne.symm hab)
  have hdd : 0 < dot2 (sub2 b a) (sub2 b a) := Detail.dot2_self_pos _ hd
  have hrep : smul2 (dot2 (sub2 b a) (sub2 b a)) (sub2 v a) =
      smul2 (dot2 (sub2 v a) (sub2 b a)) (sub2 b a) := smul_rep2 _ _ h
  refine ⟨dot2 (sub2 v a) (sub2 b a) / dot2 (sub2 b a) (sub2 b a), ?_⟩
  obtain ⟨a1, a2⟩ := a; obtain ⟨b1, b2⟩ := b; obtain ⟨v1, v2⟩ := v
  simp only [smul2, sub2, dot2, add2, Prod.mk.injEq] at hrep ⊢
  have hdd' : (b1 - a1) * (b1 - a1) + (b2 - a2) * (b2 - a2) ≠ 0 := by
    simp only [sub2, dot2] at hdd
    linarith
  obtain ⟨e1, e2⟩ := hrep
  constructor
  · field_simp
    linarith [e1]
  · field_simp
    linarith [e2]

/-- `to_3d` is affine. -/
lemma to3d_affine (m : PlaneRaw) (x y : Q2) (t : ℚ) :
    to3d m (add2 x (smul2 t (sub2 y x))) =
      add3 (to3d m x) (smul3 t (sub3 (to3d m y) (to3d m x))) := by
  obtain ⟨⟨o1, o2, o3⟩, ⟨p1, p2, p3⟩, ⟨q1, q2, q3⟩, c1, c2, d1, d2⟩ := m
  obtain ⟨x1, x2⟩ := x; obtain ⟨y1, y2⟩ := y
  simp only [to3d, add2, add3, smul2, smul3, sub2, sub3, Prod.mk.injEq]
  refine ⟨by ring, by ring, by ring⟩

/-- `to_2d` is affine. -/
lemma to2d_affine (m : PlaneRaw) (x y : Q3) (t : ℚ) :
    to2d m (add3 x (smul3 t (sub3 y x))) =
      add2 (to2d m x) (smul2 t (sub2 (to2d m y) (to2d m x))) := by
  obtain ⟨o, b1, b2, c1, c2, ⟨d1, d2, d3⟩, ⟨e1, e2, e3⟩⟩ := m
  obtain ⟨x1, x2, x3⟩ := x; obtain ⟨y1, y2, y3⟩ := y
  simp only [to2d, add2, add3, smul2, smul3, sub2, sub3, dot3, Prod.mk.injEq]
  constructor <;> ring

/-- A point fixed by `to_3d ∘ to_2d` stays fixed along any rational
affine combination with another fixed point. -/
lemma roundtrip_on_line3 (pl : PlaneMap) (p q m : Q3)
    (hp : to3d pl.toPlaneRaw (to2d pl.toPlaneRaw p) = p)
    (hq : to3d pl.toPlaneRaw (to2d pl.toPlaneRaw q) = q)
    (ht : ∃ t : ℚ, m = add3 p (smul3 t (sub3 q p))) :
    to3d pl.toPlaneRaw (to2d pl.toPlaneRaw m) = m := by
  obtain ⟨t, rfl⟩ := ht
  rw [to2d_affine, to3d_affine, hp, hq]

lemma scanPoly_end (se2 : Q2 × Q2) (first : Q2) (pts done : List Q2) :
    scanPoly se2 first pts done [] = (done, pts) := by
  simp [scanPoly]

lemma scanPoly_break (se2 : Q2 × Q2) (first v : Q2) (done rest : List Q2) :
    scanPoly se2 first [] done (v :: rest) = (done ++ v :: rest, []) := by
  cases rest with
  | nil => rw [scanPoly, if_pos rfl]
  | cons n rest' => rw [scanPoly, if_pos rfl]

lemma scanPoly_insert_wrap (se2 : Q2 × Q2) (first v p : Q2) (pts done : List Q2)
    (hpts : pts ≠ [])
    (hseg : segHasOn2 se2.1 se2.2 v ∧ segHasOn2 se2.1 se2.2 first)
    (hfind : pts.find? (fun q => decide (segHasOn2 v first q)) = some p) :
    scanPoly se2 first pts done [v] =
      scanPoly se2 p (pts.erase p) (p :: done) [v] := by
  rw [scanPoly]
  rw [if_neg hpts]
  simp only []
  rw [if_pos hseg]
  split
  next q hq =>
    rw [hfind] at hq
    cases hq
    rfl
  next hq =>
    rw [hfind] at hq
    cases hq

lemma scanPoly_insert_mid (se2 : Q2 × Q2) (first v n p : Q2)
    (pts done rest : List Q2) (hpts : pts ≠ [])
    (hseg : segHasOn2 se2.1 se2.2 v ∧ segHasOn2 se2.1 se2.2 n)
    (hfind : pts.find? (fun q => decide (segHasOn2 v n q)) = some p) :
    scanPoly se2 first pts done (v :: n :: rest) =
      scanPoly se2 first (pts.erase p) done (v :: p :: n :: rest) := by
  rw [scanPoly]
  rw [if_neg hpts]
  simp only []
  rw [if_pos hseg]
  split
  next q hq =>
    rw [hfind] at hq
    cases hq
    rfl
  next hq =>
    rw [hfind] at hq
    cases hq

lemma scanPoly_advance_none (se2 : Q2 × Q2) (first v nxt : Q2)
    (pts done rest : List Q2) (hpts : pts ≠ [])
    (hnxt : nxt = match rest with | [] => first | n :: _ => n)
    (hfind : pts.find? (fun q => decide (segHasOn2 v nxt q)) = none) :
    scanPoly se2 first pts done (v :: rest) =
      scanPoly se2 first pts (done ++ [v]) rest := by
  cases rest with
  | nil =>
    subst hnxt
    conv_lhs => rw [scanPoly]
    rw [if_neg hpts]
    simp only []
    by_cases hseg : segHasOn2 se2.1 se2.2 v ∧ segHasOn2 se2.1 se2.2 nxt
    · rw [if_pos hseg]
      split
      next q hq =>
        rw [hfind] at hq
        cases hq
      next hq => rfl
    · rw [if_neg hseg]
  | cons n rest' =>
    subst hnxt
    conv_lhs => rw [scanPoly]
    rw [if_neg hpts]
    simp only []
    by_cases hseg : segHasOn2 se2.1 se2.2 v ∧ segHasOn2 se2.1 se2.2 nxt
    · rw [if_pos hseg]
      split
      next q hq =>
        rw [hfind] at hq
        cases hq
      next hq => rfl
    · rw [if_neg hseg]

lemma scanPoly_advance_noseg (se2 : Q2 × Q2) (first v nxt : Q2)
    (pts done rest : List Q2) (hpts : pts ≠ [])
    (hnxt : nxt = match rest with | [] => first | n :: _ => n)
    (hseg : ¬(segHasOn2 se2.1 se2.2 v ∧ segHasOn2 se2.1 se2.2 nxt)) :
    scanPoly se2 first pts done (v :: rest) =
      scanPoly se2 first pts (done ++ [v]) rest := by
  cases rest with
  | nil =>
    subst hnxt
    conv_lhs => rw [scanPoly]
    rw [if_neg hpts]
    simp only []
    rw [if_neg hseg]
  | cons n rest' =>
    subst hnxt
    conv_lhs => rw [scanPoly]
    rw [if_neg hpts]
    simp only []
    rw [if_neg hseg]

/-- A member can be moved to the front: the permutation behind
`std::list::insert`. -/
lemma perm_cons_erase2 (p : Q2) (pts : List Q2) (hp : p ∈ pts) :
    pts.Perm (p :: pts.erase p) := by
  induction pts with
  | nil => cases hp
  | cons a l ih =>
    rw [List.erase_cons]
    by_cases h : a = p
    · subst h
      simp
    · rw [if_neg (by simp [h])]
      rcases List.mem_cons.mp hp with rfl | hmem
      · exact absurd rfl h
      · exact (List.perm_cons a).mpr (ih hmem) |>.trans (List.Perm.swap p a _)

lemma coe_erase_add (p : Q2) (pts : List Q2) (hp : p ∈ pts) :
    (↑pts : Multiset Q2) = ↑(pts.erase p) + {p} := by
  have h1 : (↑pts : Multiset Q2) = ↑(p :: pts.erase p) :=
    Multiset.coe_eq_coe.mpr (perm_cons_erase2 p pts hp)
  rw [h1, ← Multiset.cons_coe, ← Multiset.singleton_add, add_comm]

/-- Specification of one boundary scan: the scanned boundary consists of
the old vertices plus some consumed points; the remaining points plus
the consumed points are the input points; every consumed point lies on
the shared edge's supporting line. -/
lemma scanPoly_spec (se2 : Q2 × Q2) (first : Q2) (pts done rest : List Q2) :
    ∃ consumed : List Q2,
      ((scanPoly se2 first pts done rest).1 : Multiset Q2) =
        ↑done + ↑rest + ↑consumed ∧
      (↑pts : Multiset Q2) =
        ↑(scanPoly se2 first pts done rest).2 + ↑consumed ∧
      ∀ x ∈ consumed, lineHasOn2 se2.1 se2.2 x := by
  induction first, pts, done, rest using scanPoly.induct se2 with
  | case1 x pts done =>
    refine ⟨[], ?_, ?_, by simp⟩
    · rw [scanPoly_end]
      simp
    · rw [scanPoly_end]
      simp
  | case2 first done v rest =>
    refine ⟨[], ?_, ?_, by simp⟩
    · rw [scanPoly_break]
      simp [← Multiset.coe_add]
    · rw [scanPoly_break]
      simp
  | case3 first pts done v hpts p nxt hseg hfind ih =>
    have hnxt : nxt = first := rfl
    rw [hnxt] at hseg hfind
    obtain ⟨c, h1, h2, h3⟩ := ih
    have hpmem : p ∈ pts := List.mem_of_find?_eq_some hfind
    have hdec : decide (segHasOn2 v first p) = true :=
      @List.find?_some Q2 (fun q => decide (segHasOn2 v first q)) p pts hfind
    have hpseg : segHasOn2 v first p := of_decide_eq_true hdec
    rw [scanPoly_insert_wrap se2 first v p pts done hpts hseg hfind]
    refine ⟨p :: c, ?_, ?_, ?_⟩
    · rw [h1]
      simp only [← Multiset.cons_coe, ← Multiset.singleton_add, Multiset.coe_nil]
      abel
    · rw [coe_erase_add p pts hpmem, h2]
      simp only [← Multiset.cons_coe, ← Multiset.singleton_add]
      abel
    · intro x hx
      rcases List.mem_cons.mp hx with rfl | hx
      · exact seg_point_on_line se2.1 se2.2 v first x hseg.1 hseg.2 hpseg
      · exact h3 x hx
  | case4 first pts done v hpts p n tail nxt hseg hfind ih =>
    have hnxt : nxt = n := rfl
    rw [hnxt] at hseg hfind
    obtain ⟨c, h1, h2, h3⟩ := ih
    have hpmem : p ∈ pts := List.mem_of_find?_eq_some hfind
    have hdec : decide (segHasOn2 v n p) = true :=
      @List.find?_some Q2 (fun q => decide (segHasOn2 v n q)) p pts hfind
    have hpseg : segHasOn2 v n p := of_decide_eq_true hdec
    rw [scanPoly_insert_mid se2 first v n p pts done tail hpts hseg hfind]
    refine ⟨p :: c, ?_, ?_, ?_⟩
    · rw [h1]
      simp only [← Multiset.cons_coe, ← Multiset.singleton_add]
      abel
    · rw [coe_erase_add p pts hpmem, h2]
      simp only [← Multiset.cons_coe, ← Multiset.singleton_add]
      abel
    · intro x hx
      rcases List.mem_cons.mp hx with rfl | hx
      · exact seg_point_on_line se2.1 se2.2 v n x hseg.1 hseg.2 hpseg
      · exact h3 x hx
  | case5 first pts done v rest hpts nxt hseg hfind ih =>
    obtain ⟨c, h1, h2, h3⟩ := ih
    rw [scanPoly_advance_none se2 first v nxt pts done rest hpts rfl hfind]
    refine ⟨c, ?_, h2, h3⟩
    rw [h1]
    simp only [← Multiset.coe_add, ← Multiset.cons_coe, ← Multiset.singleton_add,
      Multiset.coe_nil]
    abel
  | case6 first pts done v rest hpts nxt hseg ih =>
    obtain ⟨c, h1, h2, h3⟩ := ih
    rw [scanPoly_advance_noseg se2 first v nxt pts done rest hpts rfl hseg]
    refine ⟨c, ?_, h2, h3⟩
    rw [h1]
    simp only [← Multiset.coe_add, ← Multiset.cons_coe, ← Multiset.singleton_add,
      Multiset.coe_nil]
    abel

/-- All outer-boundary vertices of a polygon list, in iteration order. -/
def outersOf (polys : List Detail.PolygonWithHoles) : List Q2 :=
  polys.flatMap (fun poly => poly.outer)

/-- Specification of the polygon loop: outer boundaries gain exactly the
consumed points, which all lie on the shared edge's supporting line. -/
lemma scanPolys_spec (se2 : Q2 × Q2) (polys : List Detail.PolygonWithHoles)
    (pts : List Q2) :
    ∃ consumed : List Q2,
      (↑(outersOf (scanPolys se2 polys pts).1) : Multiset Q2) =
        ↑(outersOf polys) + ↑consumed ∧
      (↑pts : Multiset Q2) = ↑(scanPolys se2 polys pts).2 + ↑consumed ∧
      ∀ x ∈ consumed, lineHasOn2 se2.1 se2.2 x := by
  induction polys generalizing pts with
  | nil =>
    exact ⟨[], by simp [scanPolys, outersOf], by simp [scanPolys], by simp⟩
  | cons poly ps ih =>
    obtain ⟨c1, h11, h12, h13⟩ :=
      scanPoly_spec se2 (poly.outer.headD (0, 0)) pts [] poly.outer
    obtain ⟨c2, h21, h22, h23⟩ :=
      ih (scanPoly se2 (poly.outer.headD (0, 0)) pts [] poly.outer).2
    refine ⟨c1 ++ c2, ?_, ?_, ?_⟩
    · simp only [scanPolys, outersOf, List.flatMap_cons, ← Multiset.coe_add]
      simp only [outersOf] at h21
      rw [h21, h11]
      simp only [← Multiset.coe_add, Multiset.coe_nil]
      abel
    · simp only [scanPolys]
      rw [h12, h22]
      simp only [← Multiset.coe_add]
      abel
    · intro x hx
      rcases List.mem_append.mp hx with hx | hx
      · exact h13 x hx
      · exact h23 x hx

/-- Specification of the color loop: across all colors, outer boundaries
gain exactly the consumed points, which all lie on the shared edge's
supporting line. -/
lemma scanColors_spec (se2 : Q2 × Q2)
    (colored : List (ℕ × List Detail.PolygonWithHoles)) (pts : List Q2) :
    ∃ consumed : List Q2,
      (↑(allOuterVerts (scanColors se2 colored pts).1) : Multiset Q2) =
        ↑(allOuterVerts colored) + ↑consumed ∧
      (↑pts : Multiset Q2) = ↑(scanColors se2 colored pts).2 + ↑consumed ∧
      ∀ x ∈ consumed, lineHasOn2 se2.1 se2.2 x := by
  induction colored generalizing pts with
  | nil =>
    exact ⟨[], by simp [scanColors, allOuterVerts], by simp [scanColors], by simp⟩
  | cons pr colored ih =>
    obtain ⟨cl, ps⟩ := pr
    obtain ⟨c1, h11, h12, h13⟩ := scanPolys_spec se2 ps pts
    obtain ⟨c2, h21, h22, h23⟩ := ih (scanPolys se2 ps pts).2
    refine ⟨c1 ++ c2, ?_, ?_, ?_⟩
    · simp only [scanColors, allOuterVerts, List.flatMap_cons, ← Multiset.coe_add]
      simp only [allOuterVerts] at h21
      simp only [outersOf] at h11
      rw [h21, h11]
      abel
    · simp only [scanColors]
      rw [h12, h22]
      simp only [← Multiset.coe_add]
      abel
    · intro x hx
      rcases List.mem_append.mp hx with hx | hx
      · exact h13 x hx
      · exact h23 x hx

/-- `findPointsOnEdge`'s inner loops commute with flattening: filtering
each boundary and concatenating is filtering the concatenation. -/
lemma pointsOnEdgeList_eq (td : TriangleDetail) (e : Q3 × Q3) :
    pointsOnEdgeList td e =
      ((allOuterVerts td.coloredPolys).filter (fun v =>
        decide (lineHasOn2 (to2d td.plane.toPlaneRaw e.1)
          (to2d td.plane.toPlaneRaw e.2) v))).map
        (fun v => to3d td.plane.toPlaneRaw v) := by
  unfold pointsOnEdgeList allOuterVerts
  induction td.coloredPolys with
  | nil => rfl
  | cons pr rest ih =>
    simp only [List.flatMap_cons, List.filter_append, List.map_append, ih]
    congr 1
    induction pr.2 with
    | nil => rfl
    | cons poly polys ih2 =>
      simp only [List.flatMap_cons, List.filter_append, List.map_append, ih2]

/-- Filtering and mapping a boundary list respects multiset equality. -/
lemma coe_filter_map (pr : Q2 → Bool) (f : Q2 → Q3) (L C L' : List Q2)
    (h : (↑L' : Multiset Q2) = ↑L + ↑C) :
    (↑((L'.filter pr).map f) : Multiset Q3) =
      ↑((L.filter pr).map f) + ↑((C.filter pr).map f) := by
  rw [Multiset.coe_add, Multiset.coe_eq_coe] at h
  have h2 : ((L'.filter pr).map f).Perm (((L ++ C).filter pr).map f) :=
    (h.filter pr).map f
  rw [Multiset.coe_eq_coe.mpr h2, List.filter_append, List.map_append,
    ← Multiset.coe_add]

/-- `addMissingPoints` leaves the original triangle and its plane
unchanged; only the stored polygons change. -/
lemma addMissingPoints_fields (td : TriangleDetail) (M T : Finset Q3)
    (e : Q3 × Q3) :
    (addMissingPoints td M T e).1.v0 = td.v0 ∧
    (addMissingPoints td M T e).1.v1 = td.v1 ∧
    (addMissingPoints td M T e).1.v2 = td.v2 ∧
    (addMissingPoints td M T e).1.plane = td.plane := by
  unfold addMissingPoints
  split <;> exact ⟨rfl, rfl, rfl, rfl⟩

/-- After `addMissingPoints`, the boundary points on the shared edge are
the union of both sides' original point sets, given the source's
assertion that every missing point was placed (`assert(points2D.empty())`)
and that the missing points round-trip through this side's plane
parametrization. -/
lemma addMissingPoints_points (td : TriangleDetail) (M T : Finset Q3)
    (e : Q3 × Q3) (hM : M = findPointsOnEdge td e)
    (hleft : leftoverPoints td M T e = [])
    (hrt : ∀ x ∈ T \ M,
      to3d td.plane.toPlaneRaw (to2d td.plane.toPlaneRaw x) = x) :
    findPointsOnEdge (addMissingPoints td M T e).1 e = M ∪ T := by
  by_cases hdiff : T \ M = ∅
  · have hTM : T ⊆ M := Finset.sdiff_eq_empty_iff_subset.mp hdiff
    rw [addMissingPoints, if_pos hdiff]
    show findPointsOnEdge td e = M ∪ T
    rw [Finset.union_eq_left.mpr hTM]
    exact hM.symm
  · obtain ⟨c, h1, h2, h3⟩ :=
      scanColors_spec (sharedEdge2D td e) td.coloredPolys (missing2D td M T)
    rw [leftoverPoints] at hleft
    rw [hleft] at h2
    simp only [Multiset.coe_nil, zero_add] at h2
    have hnew : (↑(pointsOnEdgeList
        { td with coloredPolys :=
            (scanColors (sharedEdge2D td e) td.coloredPolys
              (missing2D td M T)).1 } e) : Multiset Q3) =
        ↑(pointsOnEdgeList td e) + ↑((T \ M).sort le3) := by
      rw [pointsOnEdgeList_eq, pointsOnEdgeList_eq]
      dsimp only
      rw [coe_filter_map _ _ (allOuterVerts td.coloredPolys) c _ h1]
      congr 1
      have hcf : c.filter (fun v =>
          decide (lineHasOn2 (to2d td.plane.toPlaneRaw e.1)
            (to2d td.plane.toPlaneRaw e.2) v)) = c :=
        List.filter_eq_self.mpr (fun a ha => decide_eq_true (h3 a ha))
      rw [hcf]
      rw [Multiset.coe_eq_coe] at h2
      rw [Multiset.coe_eq_coe.mpr ((h2.map
        (fun v => to3d td.plane.toPlaneRaw v)).symm)]
      unfold missing2D
      rw [List.map_map]
      rw [List.map_congr_left (fun a ha => ?_), List.map_id]
      have haTM : a ∈ T \ M := (Finset.mem_sort le3).mp ha
      simpa using hrt a haTM
    simp only [addMissingPoints, if_neg hdiff]
    subst hM
    ext x
    have hmem : x ∈ pointsOnEdgeList
        { td with coloredPolys :=
            (scanColors (sharedEdge2D td e) td.coloredPolys
              (missing2D td (findPointsOnEdge td e) T)).1 } e ↔
        x ∈ pointsOnEdgeList td e ∨
          x ∈ (T \ findPointsOnEdge td e).sort le3 := by
      rw [← Multiset.mem_coe, hnew, Multiset.mem_add, Multiset.mem_coe,
        Multiset.mem_coe]
    simp only [findPointsOnEdge, List.mem_toFinset, Finset.mem_union] at *
    rw [hmem, Finset.mem_sort, Finset.mem_sdiff]
    simp only [findPointsOnEdge, List.mem_toFinset]
    tauto

/-- C2: for TriangleDetails sharing an edge, one `correctSharedVertices`
call equalizes the boundary point sets on the shared edge, and a second
call inserts nothing: it returns the state unchanged with
`(false, false)`.  The hypotheses record the source's preconditions: the
originals share an edge, the insertion loop places every missing point
(`assert(points2D.empty())`), and each side's plane parametrization
round-trips the other side's points on the shared edge. -/
theorem correctSharedVertices_idempotent
    (A B : TriangleDetail) (e : Q3 × Q3) (A' B' : TriangleDetail)
    (fA fB : Bool)
    (hse : findSharedEdge A B = some e)
    (hfst : correctSharedVertices A B = ((A', B'), (fA, fB)))
    (hlA : leftoverPoints A (findPointsOnEdge A e) (findPointsOnEdge B e) e
      = [])
    (hlB : leftoverPoints B (findPointsOnEdge B e) (findPointsOnEdge A e) e
      = [])
    (hrtA : ∀ x ∈ findPointsOnEdge B e \ findPointsOnEdge A e,
      to3d A.plane.toPlaneRaw (to2d A.plane.toPlaneRaw x) = x)
    (hrtB : ∀ x ∈ findPointsOnEdge A e \ findPointsOnEdge B e,
      to3d B.plane.toPlaneRaw (to2d B.plane.toPlaneRaw x) = x) :
    findPointsOnEdge A' e = findPointsOnEdge B' e ∧
      correctSharedVertices A' B' = ((A', B'), (false, false)) := by
  simp only [correctSharedVertices, hse, Prod.mk.injEq] at hfst
  obtain ⟨⟨hA', hB'⟩, hfA, hfB⟩ := hfst
  have hApts : findPointsOnEdge A' e =
      findPointsOnEdge A e ∪ findPointsOnEdge B e := by
    rw [← hA']
    exact addMissingPoints_points A _ _ e rfl hlA hrtA
  have hBpts : findPointsOnEdge B' e =
      findPointsOnEdge B e ∪ findPointsOnEdge A e := by
    rw [← hB']
    exact addMissingPoints_points B _ _ e rfl hlB hrtB
  have hvA : verts A' = verts A := by
    rw [← hA']
    obtain ⟨h0, h1, h2, _⟩ := addMissingPoints_fields A
      (findPointsOnEdge A e) (findPointsOnEdge B e) e
    unfold verts
    rw [h0, h1, h2]
  have hvB : verts B' = verts B := by
    rw [← hB']
    obtain ⟨h0, h1, h2, _⟩ := addMissingPoints_fields B
      (findPointsOnEdge B e) (findPointsOnEdge A e) e
    unfold verts
    rw [h0, h1, h2]
  have hce : commonPoints A' B' = commonPoints A B := by
    unfold commonPoints
    rw [hvA, hvB]
  have hse' : findSharedEdge A' B' = some e := by
    rw [findSharedEdge, hce]
    exact hse
  have hd1 : findPointsOnEdge B' e \ findPointsOnEdge A' e = ∅ := by
    rw [hApts, hBpts,
      Finset.union_comm (findPointsOnEdge B e) (findPointsOnEdge A e)]
    exact Finset.sdiff_self _
  have hd2 : findPointsOnEdge A' e \ findPointsOnEdge B' e = ∅ := by
    rw [hApts, hBpts,
      Finset.union_comm (findPointsOnEdge B e) (findPointsOnEdge A e)]
    exact Finset.sdiff_self _
  constructor
  · rw [hApts, hBpts,
      Finset.union_comm (findPointsOnEdge B e) (findPointsOnEdge A e)]
  · simp only [correctSharedVertices, hse']
    rw [addMissingPoints, addMissingPoints, if_pos hd1, if_pos hd2]

/-- The xy-plane parametrization. -/
def planeXYW : PlaneMap where
  o := (0, 0, 0)
  b1 := (1, 0, 0)
  b2 := (0, 1, 0)
  c1 := 0
  c2 := 0
  d1 := (1, 0, 0)
  d2 := (0, 1, 0)
  leftInv := fun v => by
    obtain ⟨u, w⟩ := v
    simp only [to2d, to3d, dot3, add3, smul3, Prod.mk.injEq]
    constructor <;> ring

/-- The xz-plane parametrization. -/
def planeXZW : PlaneMap where
  o := (0, 0, 0)
  b1 := (1, 0, 0)
  b2 := (0, 0, 1)
  c1 := 0
  c2 := 0
  d1 := (1, 0, 0)
  d2 := (0, 0, 1)
  leftInv := fun v => by
    obtain ⟨u, w⟩ := v
    simp only [to2d, to3d, dot3, add3, smul3, Prod.mk.injEq]
    constructor <;> ring

/-- A triangle in the xy-plane. -/
def tdWA : TriangleDetail :=
  ⟨(0, 0, 0), (2, 0, 0), (0, 2, 0), planeXYW, []⟩

/-- A triangle in the xz-plane sharing the edge from the origin to
`(2, 0, 0)` with `tdWA`. -/
def tdWB : TriangleDetail :=
  ⟨(0, 0, 0), (2, 0, 0), (0, 0, 2), planeXZW, []⟩

/-- Witness for C2 at a concrete pair of triangles sharing an edge. -/
theorem correctSharedVertices_idempotent_witness :
    findPointsOnEdge tdWA ((0, 0, 0), (2, 0, 0)) =
        findPointsOnEdge tdWB ((0, 0, 0), (2, 0, 0)) ∧
      correctSharedVertices tdWA tdWB = ((tdWA, tdWB), (false, false)) := by
  have hse : findSharedEdge tdWA tdWB = some ((0, 0, 0), (2, 0, 0)) := by
    norm_num [findSharedEdge, commonPoints, verts, tdWA, tdWB,
      List.filterMap_cons, Prod.mk.injEq, Prod.ext_iff]
  have hMA : findPointsOnEdge tdWA ((0, 0, 0), (2, 0, 0)) = ∅ := by
    simp [findPointsOnEdge, pointsOnEdgeList, tdWA]
  have hMB : findPointsOnEdge tdWB ((0, 0, 0), (2, 0, 0)) = ∅ := by
    simp [findPointsOnEdge, pointsOnEdgeList, tdWB]
  have hd1 : findPointsOnEdge tdWB ((0, 0, 0), (2, 0, 0)) \
      findPointsOnEdge tdWA ((0, 0, 0), (2, 0, 0)) = ∅ := by
    rw [hMA, hMB]
    simp
  have hd2 : findPointsOnEdge tdWA ((0, 0, 0), (2, 0, 0)) \
      findPointsOnEdge tdWB ((0, 0, 0), (2, 0, 0)) = ∅ := by
    rw [hMA, hMB]
    simp
  have hfst : correctSharedVertices tdWA tdWB =
      ((tdWA, tdWB), (false, false)) := by
    simp only [correctSharedVertices, hse]
    rw [addMissingPoints, if_pos hd1, addMissingPoints, if_pos hd2]
  have hlA : leftoverPoints tdWA
      (findPointsOnEdge tdWA ((0, 0, 0), (2, 0, 0)))
      (findPointsOnEdge tdWB ((0, 0, 0), (2, 0, 0)))
      ((0, 0, 0), (2, 0, 0)) = [] := by
    rw [leftoverPoints, hMA, hMB]
    simp [missing2D, scanColors, tdWA, Finset.sort_empty]
  have hlB : leftoverPoints tdWB
      (findPointsOnEdge tdWB ((0, 0, 0), (2, 0, 0)))
      (findPointsOnEdge tdWA ((0, 0, 0), (2, 0, 0)))
      ((0, 0, 0), (2, 0, 0)) = [] := by
    rw [leftoverPoints, hMA, hMB]
    simp [missing2D, scanColors, tdWB, Finset.sort_empty]
  exact correctSharedVertices_idempotent tdWA tdWB ((0, 0, 0), (2, 0, 0))
    tdWA tdWB false false hse hfst hlA hlB
    (fun x hx => by rw [hd1] at hx; simp at hx)
    (fun x hx => by rw [hd2] at hx; simp at hx)

end Sync

end Pepr3d
